import Mathlib

/-!
Verification of the recoverybot_searxng repository.

This file gives a shallow embedding, in Lean 4, of the parts of the
repository's Python source that the specification talks about, and proves
(or refutes) the spec's claims against that embedding.

Conventions of the embedding:
* Python floats are modelled as rationals (`ℚ`); `time.time()` is passed in
  explicitly as a `now : ℚ` argument.
* Random draws (`random.expovariate`, `random.uniform`) are passed in as
  explicit parameters: a draw `u : ℚ` with `0 ≤ u ≤ 1` stands for a sample
  of `random.uniform(0, 1)`, and an unconstrained parameter stands for the
  raw sample where only its deterministic post-processing matters.
* Python `dict`s (insertion ordered, last assignment wins, assignment to an
  existing key keeps its position) are modelled as association lists with
  the `alookup` / `assocSet` operations below.
* `list.sort(key=..., reverse=True)` (a stable sort) is modelled with
  `List.mergeSort` and the comparison `fun a b => decide (key b ≤ key a)`,
  which keeps ties in input order exactly as CPython does.
-/

/-- Python dict lookup on an association list (first binding wins;
Python dicts have unique keys, an invariant the code maintains). -/

def alookup {α β : Type} [DecidableEq α] (k : α) : List (α × β) → Option β
  | [] => none
  | p :: ps => if p.1 = k then some p.2 else alookup k ps

/-- Python dict assignment `d[k] = v`: overwrite in place if the key exists
(keeping its position), otherwise append at the end. -/

def assocSet {α β : Type} [DecidableEq α] (k : α) (v : β) : List (α × β) → List (α × β)
  | [] => [(k, v)]
  | p :: ps => if p.1 = k then (k, v) :: ps else p :: assocSet k v ps

/-! ## intelligent_throttler.py -/

/-- Circuit breaker states (`CircuitState` in intelligent_throttler.py).
`opened` models the Python member `OPEN` (Lean reserves the word). -/

inductive CircuitState where
  | closed
  | opened
  | halfOpen
deriving DecidableEq, Repr

/-- Health record for one engine (`EngineHealth` dataclass). -/

structure EngineHealth where
  name : String
  consecutive_failures : ℕ := 0
  last_failure_time : ℚ := 0
  last_success_time : ℚ := 0
  circuit_state : CircuitState := CircuitState.closed
  current_backoff : ℚ := 1
  total_requests : ℕ := 0
  total_failures : ℕ := 0
  failure_threshold : ℕ := 3
  recovery_timeout : ℚ := 60
deriving DecidableEq, Repr

/-- A fresh `EngineHealth(name=engine)` as created by `_get_engine_health`. -/

def EngineHealth.init (name : String) : EngineHealth := { name := name }

/-- `IntelligentThrottler.BASE_DELAY`. -/

def BASE_DELAY : ℚ := 1

/-- `IntelligentThrottler.MAX_DELAY`. -/

def MAX_DELAY : ℚ := 60

/-- `IntelligentThrottler.MIN_HUMAN_DELAY` (0.5 s). -/

def MIN_HUMAN_DELAY : ℚ := 1/2

/-- `IntelligentThrottler.MAX_HUMAN_DELAY` (3.0 s). -/

def MAX_HUMAN_DELAY : ℚ := 3

/-- `_poisson_delay`: clamp the exponential draw (passed in as `draw`,
standing for `random.expovariate(POISSON_RATE)`) to
`[MIN_HUMAN_DELAY, MAX_HUMAN_DELAY * 2]`. -/

def poisson_delay (draw : ℚ) : ℚ :=
  max MIN_HUMAN_DELAY (min draw (MAX_HUMAN_DELAY * 2))

/-- `_full_jitter_backoff`: `random.uniform(0, min(BASE_DELAY * 2**attempt, MAX_DELAY))`,
with `u` standing for the uniform-[0,1] sample. -/

def full_jitter_backoff (attempt : ℕ) (u : ℚ) : ℚ :=
  u * min (BASE_DELAY * 2 ^ attempt) MAX_DELAY

/-- `_decorrelated_jitter_backoff`: `random.uniform(BASE_DELAY, min(previous*3, MAX_DELAY))`,
with `u` standing for the uniform-[0,1] sample. -/

def decorrelated_jitter_backoff (previous u : ℚ) : ℚ :=
  BASE_DELAY + u * (min (previous * 3) MAX_DELAY - BASE_DELAY)

/-- `IntelligentThrottler.record_success`. -/

def record_success (now : ℚ) (h : EngineHealth) : EngineHealth :=
  { h with
    consecutive_failures := 0
    current_backoff := BASE_DELAY
    last_success_time := now
    circuit_state :=
      if h.circuit_state = CircuitState.halfOpen then CircuitState.closed
      else h.circuit_state }

/-- `IntelligentThrottler.record_failure` (`u` is the uniform draw of the
decorrelated jitter; the returned backoff is `current_backoff` of the result). -/

def record_failure (now u : ℚ) (error_type : String) (h : EngineHealth) : EngineHealth :=
  let cf := h.consecutive_failures + 1
  let h1 := { h with
    consecutive_failures := cf
    total_failures := h.total_failures + 1
    last_failure_time := now
    current_backoff := decorrelated_jitter_backoff h.current_backoff u }
  if h1.failure_threshold ≤ cf then
    { h1 with
      circuit_state := CircuitState.opened
      recovery_timeout :=
        if error_type = "captcha" ∨ error_type = "access_denied" then
          min (h1.recovery_timeout * 2) 600
        else h1.recovery_timeout }
  else h1

/-- `IntelligentThrottler.wait_before_request` for one engine.
`lastRequestTime` is the throttler-global `last_request_time`;
`pdraw` is the exponential draw used by `_poisson_delay` and `ju` the
uniform draw used by `_full_jitter_backoff`.  Returns
`(delay, new health, new last_request_time)`, or `Except.error ()` for a
raised `CircuitOpenError` (in which case nothing is mutated). -/

def wait_before_request (now pdraw ju lastRequestTime : ℚ) (h : EngineHealth) :
    Except Unit (ℚ × EngineHealth × ℚ) :=
  let check : Except Unit EngineHealth :=
    if h.circuit_state = CircuitState.opened then
      if now - h.last_failure_time < h.recovery_timeout then Except.error ()
      else Except.ok { h with circuit_state := CircuitState.halfOpen }
    else Except.ok h
  match check with
  | Except.error e => Except.error e
  | Except.ok h' =>
    let delay :=
      if 0 < h'.consecutive_failures then
        full_jitter_backoff h'.consecutive_failures ju
      else
        let time_since_last := now - lastRequestTime
        if time_since_last < MIN_HUMAN_DELAY then poisson_delay pdraw
        else max 0 (MIN_HUMAN_DELAY - time_since_last)
    Except.ok (delay, { h' with total_requests := h'.total_requests + 1 }, now + delay)

/-- Fold a list of `record_failure` calls (each with its own `now`, jitter
draw and error type) over a health record. -/

def apply_failures (ps : List (ℚ × ℚ × String)) (h : EngineHealth) : EngineHealth :=
  ps.foldl (fun h p => record_failure p.1 p.2.1 p.2.2 h) h

/-! ## feedback_loop.py -/

/-- Aggregated performance metrics for an engine (`EnginePerformance`
dataclass; `last_updated` is carried as data). -/

structure EnginePerformance where
  engine : String
  query_type : String
  total_impressions : ℕ := 0
  clicks : ℕ := 0
  dwells : ℕ := 0
  helpful_ratings : ℕ := 0
  not_helpful_ratings : ℕ := 0
  total_dwell_time_ms : ℕ := 0
  avg_click_position : ℚ := 0
  last_updated : ℚ := 0
deriving DecidableEq, Repr

/-- `EnginePerformance.ctr`: click-through rate. -/

def EnginePerformance.ctr (p : EnginePerformance) : ℚ :=
  if p.total_impressions = 0 then 0
  else (p.clicks : ℚ) / (p.total_impressions : ℚ)

/-- `EnginePerformance.engagement_score`: composite engagement score.
Weights: CTR 40 %, dwell rate 25 %, helpful rate 25 %, position bonus 10 %. -/

def EnginePerformance.engagement_score (p : EnginePerformance) : ℚ :=
  let ctr_score := min (p.ctr * 5) 1
  let dwell_rate := (p.dwells : ℚ) / max 1 (p.clicks : ℚ)
  let dwell_score := min dwell_rate 1
  let helpful_total := p.helpful_ratings + p.not_helpful_ratings
  let helpful_rate := (p.helpful_ratings : ℚ) / max 1 (helpful_total : ℚ)
  let position_score :=
    if 0 < p.clicks then 1 / max 1 p.avg_click_position else 1/2
  (2/5) * ctr_score + (1/4) * dwell_score + (1/4) * helpful_rate
    + (1/10) * position_score

/-- `EnginePerformance.recommended_weight`: maps the engagement score to a
weight multiplier (`0.0 -> 0.5`, `0.5 -> 1.0`, `1.0 -> 2.0`). -/

def EnginePerformance.recommended_weight (p : EnginePerformance) : ℚ :=
  let score := p.engagement_score
  if score < 1/2 then 1/2 + score else 1 + (score - 1/2) * 2

/-- `FeedbackConfig.min_samples` default. -/

def MIN_SAMPLES_DEFAULT : ℕ := 10

/-- `FeedbackLoop.get_weight_adjustment`: the in-memory `_performance` map
(keyed by `(engine, query_type)`) is passed explicitly. -/

def get_weight_adjustment (min_samples : ℕ)
    (performance : List ((String × String) × EnginePerformance))
    (engine query_type : String) : ℚ :=
  match alookup (engine, query_type) performance with
  | none => 1
  | some p => if p.total_impressions < min_samples then 1 else p.recommended_weight

/-! ## semantic_cache.py -/

/-- Python `str.lower()` (character-wise case folding, as Lean's
`String.toLower` does, written on the character list so that it reduces). -/

def pyLower (s : String) : String := String.mk (s.data.map Char.toLower)

/-- Python `str.strip()`: drop whitespace from both ends. -/

def pyStrip (s : String) : String :=
  String.mk
    (((s.data.dropWhile Char.isWhitespace).reverse.dropWhile
      Char.isWhitespace).reverse)

/-- Python `sorted` on a list of strings (lexicographic by code point);
CPython's sort is a stable mergesort. -/

def sortStrings (l : List String) : List String :=
  l.mergeSort (fun a b => decide (a ≤ b))

/-- The normalized query used by `_hash_query`: `query.lower().strip()`. -/

def normalize_query (q : String) : String := pyStrip (pyLower q)

/-- The pre-hash key built by `SemanticCache._hash_query`:
`query.lower().strip()`, then `"|" + ",".join(sorted(engines))` whenever the
engine list is non-empty (Python truthiness of `engines`). -/

def hashKey (query : String) (engines : List String) : String :=
  let k := normalize_query query
  if engines.isEmpty then k
  else k ++ "|" ++ String.intercalate "," (sortStrings engines)

/-- `SemanticCache._hash_query`: the SHA-256/16-hex-digit fingerprint of the
key.  The hash itself is abstracted as an arbitrary deterministic function
`H`; every property proved below holds for any such `H`. -/

def hash_query (H : String → String) (query : String) (engines : List String) :
    String :=
  H (hashKey query engines)

/-- A cached search result (`CacheEntry` dataclass; the `results` payload is
carried opaquely as strings). -/

structure CacheEntry where
  query : String
  query_hash : String
  results : List String
  engines : List String
  timestamp : ℚ
  ttl_seconds : ℚ
  hit_count : ℕ := 0
deriving DecidableEq, Repr

/-- `CacheEntry.is_expired`: `time.time() > timestamp + ttl_seconds`. -/

def CacheEntry.is_expired (now : ℚ) (e : CacheEntry) : Bool :=
  decide (e.timestamp + e.ttl_seconds < now)

/-- The counter fields of `CacheStats` (the latency averages are wall-clock
measurements and are not modelled). -/

structure CacheStats where
  l1_hits : ℕ := 0
  l2_hits : ℕ := 0
  misses : ℕ := 0
  stores : ℕ := 0
  errors : ℕ := 0
deriving DecidableEq, Repr

/-- The cache's persistent state: the L1 Redis key-value store (keyed by the
query fingerprint, modelling the `search:{hash}` keys) and the L2 Qdrant
collection of `(point id, vector, payload)` records, plus the statistics. -/

structure CacheState where
  l1 : List (String × CacheEntry)
  l2 : List (Int × List ℚ × CacheEntry)
  stats : CacheStats
deriving DecidableEq, Repr

/-- The miss fall-through at the end of `SemanticCache.get`. -/

def cacheMiss (st : CacheState) : (Option CacheEntry × String) × CacheState :=
  ((none, "miss"),
   { st with stats := { st.stats with misses := st.stats.misses + 1 } })

/-- The L2 (Qdrant) leg of `SemanticCache.get`: embed the query (Ollama may
return nothing), run the vector search (`l2query` abstracts Qdrant's
`query_points` with the similarity threshold and `limit=1` over the stored
points), and accept the payload only if it is not expired.  The hit count
is bumped only on the returned copy. -/

def getL2 (embed : String → Option (List ℚ))
    (l2query : List (Int × List ℚ × CacheEntry) → List ℚ → Option CacheEntry)
    (qdrantOn : Bool) (now : ℚ) (query : String) (st : CacheState) :
    (Option CacheEntry × String) × CacheState :=
  match (if qdrantOn then (embed query).bind (l2query st.l2) else none) with
  | some entry =>
    if entry.is_expired now then cacheMiss st
    else ((some { entry with hit_count := entry.hit_count + 1 }, "l2"),
      { st with stats := { st.stats with l2_hits := st.stats.l2_hits + 1 } })
  | none => cacheMiss st

/-- `SemanticCache.get`: L1 exact-hash lookup in Redis first (an expired
entry falls through), then the L2 semantic lookup, then a miss.  Returns
`((entry?, level), new state)`; the hit count is bumped only on the
returned copy, never in the stores. -/

def SemanticCache.get (H : String → String)
    (embed : String → Option (List ℚ))
    (l2query : List (Int × List ℚ × CacheEntry) → List ℚ → Option CacheEntry)
    (redisOn qdrantOn : Bool) (now : ℚ)
    (query : String) (engines : List String) (st : CacheState) :
    (Option CacheEntry × String) × CacheState :=
  let query_hash := hash_query H query engines
  match (if redisOn then alookup query_hash st.l1 else none) with
  | some entry =>
    if entry.is_expired now then getL2 embed l2query qdrantOn now query st
    else ((some { entry with hit_count := entry.hit_count + 1 }, "l1"),
      { st with stats := { st.stats with l1_hits := st.stats.l1_hits + 1 } })
  | none => getL2 embed l2query qdrantOn now query st

/-- The arguments of one `SemanticCache.get` call. -/

structure GetCall where
  H : String → String
  embed : String → Option (List ℚ)
  l2query : List (Int × List ℚ × CacheEntry) → List ℚ → Option CacheEntry
  redisOn : Bool
  qdrantOn : Bool
  now : ℚ
  query : String
  engines : List String

/-- Run a sequence of `SemanticCache.get` calls, threading the state. -/

def run_gets (calls : List GetCall) (st : CacheState) : CacheState :=
  calls.foldl (fun st c =>
    (SemanticCache.get c.H c.embed c.l2query c.redisOn c.qdrantOn c.now
      c.query c.engines st).2) st

/-- A concrete stored entry used to exercise the cache theorems. -/

def testEntry : CacheEntry :=
  { query := "q", query_hash := "q", results := [], engines := [],
    timestamp := 0, ttl_seconds := 10 }

/-- A concrete cache state holding `testEntry` in L1 under its key. -/

def testCacheState : CacheState :=
  { l1 := [("q", testEntry)], l2 := [], stats := {} }

/-! ## result_fusion.py -/

/-- An input search result dict (only the fields `fuse` reads). -/

structure SearchResult where
  url : String
  title : String
  content : String
  score : ℚ := 0
deriving DecidableEq, Repr

/-- A search result with fusion metadata (`FusedResult` dataclass; the
always-empty `metadata` dict is omitted).  `original_scores` and
`original_ranks` are insertion-ordered dicts. -/

structure FusedResult where
  url : String
  title : String
  content : String
  engines : List String
  rrf_score : ℚ := 0
  weighted_score : ℚ := 0
  borda_score : ℚ := 0
  final_score : ℚ := 0
  original_scores : List (String × ℚ) := []
  original_ranks : List (String × ℕ) := []
deriving DecidableEq, Repr

/-- `ResultFusion._default_url_normalizer`: lowercase, strip trailing
slashes, then drop the first matching scheme from the list (Python's
`for`/`break`). -/

def stripSchemes : List (List Char) → List Char → List Char
  | [], u => u
  | p :: ps, u => if p.isPrefixOf u then u.drop p.length else stripSchemes ps u

/-- `ResultFusion._default_url_normalizer` on strings. -/

def default_url_normalizer (url : String) : String :=
  let u := ((pyLower url).data.reverse.dropWhile (fun c => c = '/')).reverse
  String.mk (stripSchemes
    ["https://www.".data, "http://www.".data, "https://".data, "http://".data] u)

/-- The fusion engine's configuration: `rrf_k`, the merged engine-weight
dict read through `.get(engine, 1.0)`, and the URL normalizer. -/

structure FusionConfig where
  rrf_k : ℕ
  weights : String → ℚ
  normalizer : String → String

/-- `ResultFusion.DEFAULT_WEIGHTS`, read through `.get(engine, 1.0)`. -/

def DEFAULT_WEIGHTS (engine : String) : ℚ :=
  if engine = "brave" then 3/2
  else if engine = "bing" then 6/5
  else if engine = "mojeek" then 11/10
  else if engine = "reddit" then 6/5
  else if engine = "wikipedia" then 1
  else if engine = "arxiv" then 13/10
  else if engine = "semantic_scholar" then 6/5
  else if engine = "openalex" then 6/5
  else if engine = "stackoverflow" then 11/10
  else if engine = "github" then 1
  else if engine = "pubmed" then 6/5
  else if engine = "crossref" then 1
  else 1

/-- The default `ResultFusion()` configuration. -/

def defaultFusionConfig : FusionConfig :=
  { rrf_k := 60, weights := DEFAULT_WEIGHTS, normalizer := default_url_normalizer }

/-- A fresh group `FusedResult(url=url, title=..., content=..., engines=[])`
as created on first sight of a normalized URL. -/

def newFused (r : SearchResult) : FusedResult :=
  { url := r.url, title := r.title, content := r.content, engines := [] }

/-- The per-result mutation of a group inside `fuse`'s grouping loop:
append the engine, record rank and score (dict assignment), keep the longer
title and content. -/

def updateFused (engine : String) (rank : ℕ) (r : SearchResult)
    (f : FusedResult) : FusedResult :=
  let f1 := { f with
    engines := f.engines ++ [engine]
    original_ranks := assocSet engine rank f.original_ranks
    original_scores := assocSet engine r.score f.original_scores }
  let f2 := if f1.title.length < r.title.length then { f1 with title := r.title }
    else f1
  if f2.content.length < r.content.length then { f2 with content := r.content }
  else f2

/-- One iteration of the grouping loop: skip empty URLs, create the group on
first sight of its normalized URL, then mutate the group in place. -/

def addResult (cfg : FusionConfig) (engine : String) (rank : ℕ)
    (r : SearchResult) (gs : List (String × FusedResult)) :
    List (String × FusedResult) :=
  if r.url = "" then gs
  else
    let nu := cfg.normalizer r.url
    match alookup nu gs with
    | some _ => gs.map (fun p => if p.1 = nu then (p.1, updateFused engine rank r p.2) else p)
    | none => gs ++ [(nu, updateFused engine rank r (newFused r))]

/-- `for rank, result in enumerate(results, start=1)` over one engine's
result list. -/

def addResults (cfg : FusionConfig) (engine : String) :
    ℕ → List SearchResult → List (String × FusedResult) →
    List (String × FusedResult)
  | _, [], gs => gs
  | rank, r :: rs, gs => addResults cfg engine (rank + 1) rs (addResult cfg engine rank r gs)

/-- The grouping phase of `ResultFusion.fuse`: fold all engines' lists (in
dict order) into the insertion-ordered `url_groups` dict. -/

def fuseGroups (cfg : FusionConfig)
    (results_by_engine : List (String × List SearchResult)) :
    List (String × FusedResult) :=
  results_by_engine.foldl (fun gs p => addResults cfg p.1 1 p.2 gs) []

/-- `ResultFusion._calculate_rrf`: `Σ weights[engine] / (rrf_k + rank)` over
the group's rank dict. -/

def calculate_rrf (cfg : FusionConfig) (f : FusedResult) : ℚ :=
  f.original_ranks.foldl
    (fun s p => s + cfg.weights p.1 / ((cfg.rrf_k : ℚ) + (p.2 : ℚ))) 0

/-- `ResultFusion._calculate_weighted`: weighted mean of the original scores
plus a 0.1 bonus per extra engine appearance. -/

def calculate_weighted (cfg : FusionConfig) (f : FusedResult) : ℚ :=
  if f.original_scores = [] then 0
  else
    let total_weight := f.original_scores.foldl (fun a p => a + cfg.weights p.1) 0
    let weighted_sum :=
      f.original_scores.foldl (fun a p => a + cfg.weights p.1 * p.2) 0
    let engine_bonus := (1/10 : ℚ) * ((f.engines.length : ℚ) - 1)
    (if 0 < total_weight then weighted_sum / total_weight else 0) + engine_bonus

/-- `ResultFusion._calculate_borda` with `max_rank = 100`. -/

def calculate_borda (cfg : FusionConfig) (num_engines : ℕ) (f : FusedResult) : ℚ :=
  let score := f.original_ranks.foldl
    (fun a p => a + cfg.weights p.1 * (100 - (p.2 : ℚ) + 1)) 0
  if 0 < num_engines then score / ((num_engines : ℚ) * 100) else 0

/-- The scoring pass of `fuse`: fill in `rrf_score`, `weighted_score` and
`borda_score`. -/

def scoreFused (cfg : FusionConfig) (num_engines : ℕ) (f : FusedResult) :
    FusedResult :=
  { f with
    rrf_score := calculate_rrf cfg f
    weighted_score := calculate_weighted cfg f
    borda_score := calculate_borda cfg num_engines f }

/-- The fusion method selected by `fuse`'s `method` argument (an unknown
method string raises `ValueError` in the source and is not modelled). -/

inductive FusionMethod where
  | rrf
  | weighted
  | borda
  | hybrid
deriving DecidableEq, Repr

/-- The `final_score` assignment of `fuse` for the requested method. -/

def setFinal (m : FusionMethod) (f : FusedResult) : FusedResult :=
  { f with final_score :=
    match m with
    | FusionMethod.rrf => f.rrf_score
    | FusionMethod.weighted => f.weighted_score
    | FusionMethod.borda => f.borda_score
    | FusionMethod.hybrid => (3/5) * f.rrf_score + (2/5) * f.weighted_score }

/-- The comparison of `fused_results.sort(key=lambda x: x.final_score,
reverse=True)`: a stable descending sort on `final_score`. -/

def fusedLe (a b : FusedResult) : Bool := decide (b.final_score ≤ a.final_score)

/-- The grouped and fully scored list, before sorting. -/

def scoredGroups (cfg : FusionConfig)
    (results_by_engine : List (String × List SearchResult))
    (m : FusionMethod) : List FusedResult :=
  ((fuseGroups cfg results_by_engine).map
    (fun p => setFinal m (scoreFused cfg results_by_engine.length p.2)))

/-- `ResultFusion.fuse`: group by normalized URL, score, pick the final
score, sort descending (stable), and truncate to `top_k` when it is given
and non-zero (Python truthiness of `top_k`). -/

def fuse (cfg : FusionConfig)
    (results_by_engine : List (String × List SearchResult))
    (m : FusionMethod) (top_k : Option ℕ) : List FusedResult :=
  let sorted := (scoredGroups cfg results_by_engine m).mergeSort fusedLe
  match top_k with
  | some k => if k ≠ 0 then sorted.take k else sorted
  | none => sorted

/-- The effect of one grouping-loop iteration on the group stored under a
fixed normalized URL `nu` (specification device for `addResult`). -/

def stepGroup (cfg : FusionConfig) (engine : String) (nu : String) (rank : ℕ)
    (r : SearchResult) (o : Option FusedResult) : Option FusedResult :=
  if r.url ≠ "" ∧ cfg.normalizer r.url = nu then
    some (updateFused engine rank r (o.getD (newFused r)))
  else o

/-- Iterated `stepGroup` over one engine's list. -/

def runGroup (cfg : FusionConfig) (engine : String) (nu : String) :
    ℕ → List SearchResult → Option FusedResult → Option FusedResult
  | _, [], o => o
  | rank, r :: rs, o =>
    runGroup cfg engine nu (rank + 1) rs (stepGroup cfg engine nu rank r o)

/-- Iterated `runGroup` over all engines. -/

def runInputs (cfg : FusionConfig) (nu : String)
    (inputs : List (String × List SearchResult)) (o : Option FusedResult) :
    Option FusedResult :=
  inputs.foldl (fun o p => runGroup cfg p.1 nu 1 p.2 o) o

/-- Whether some result in the list contributes to the group of normalized
URL `nu`. -/

def hasMatch (cfg : FusionConfig) (nu : String) (rs : List SearchResult) : Prop :=
  ∃ r ∈ rs, r.url ≠ "" ∧ cfg.normalizer r.url = nu

/-- The engines recorded so far in an optional group. -/

def engsOf : Option FusedResult → List String
  | some f => f.engines
  | none => []

/-- Fixture: a result with URL `"a"`. -/

def rA : SearchResult := { url := "a", title := "", content := "" }

/-- Fixture: a result with URL `"A"`, which normalizes to `"a"` as well. -/

def rAcap : SearchResult := { url := "A", title := "", content := "" }

/-- Fixture: the single fused output of `fuse` on `[("x", [rA])]`. -/

def fusedA : FusedResult :=
  setFinal FusionMethod.rrf (scoreFused defaultFusionConfig 1
    (updateFused "x" 1 rA (newFused rA)))

/-- Fixture: a result with URL `"b"`. -/

def rB : SearchResult := { url := "b", title := "", content := "" }

/-- Fixture: the scored group of engine "x"'s result `rB` in the two-engine
tie example. -/

def fusedB2 : FusedResult :=
  setFinal FusionMethod.rrf (scoreFused defaultFusionConfig 2
    (updateFused "x" 1 rB (newFused rB)))

/-- Fixture: the scored group of engine "y"'s result `rA` in the two-engine
tie example. -/

def fusedA2 : FusedResult :=
  setFinal FusionMethod.rrf (scoreFused defaultFusionConfig 2
    (updateFused "y" 1 rA (newFused rA)))

/-- The groups built by a single engine whose results all have fresh,
distinct normalized URLs: one new group per result, in input order. -/

def buildFresh (cfg : FusionConfig) (e : String) :
    ℕ → List SearchResult → List (String × FusedResult)
  | _, [] => []
  | rank, r :: rs =>
    (cfg.normalizer r.url, updateFused e rank r (newFused r)) ::
      buildFresh cfg e (rank + 1) rs

/-! ## cross_encoder_rerank.py -/

/-- A reranked search result (`RerankResult` dataclass); the original result
dict is carried opaquely. -/

structure RerankResult (α : Type) where
  original_result : α
  cross_encoder_score : ℚ
  original_rank : ℕ
  final_score : ℚ
deriving DecidableEq, Repr

/-- The fallback list built when the cross-encoder is unavailable:
`RerankResult(r, 0.0, i, 1.0 - i*0.01)` for `i, r in enumerate(results)`. -/

def fallbackRerank {α : Type} : ℕ → List α → List (RerankResult α)
  | _, [] => []
  | i, r :: rs =>
    ⟨r, 0, i, 1 - (i : ℚ) / 100⟩ :: fallbackRerank (i + 1) rs

/-- `top_k = top_k or self.config.top_k` (Python truthiness: `None` and `0`
both fall back to the configured value). -/

def resolveTopK (cfgTopK : ℕ) : Option ℕ → ℕ
  | none => cfgTopK
  | some k => if k = 0 then cfgTopK else k

/-- `min(scores) if scores else 0`. -/

def listMin : List ℚ → ℚ
  | [] => 0
  | h :: t => t.foldl min h

/-- `max(scores) if scores else 1`. -/

def listMax : List ℚ → ℚ
  | [] => 1
  | h :: t => t.foldl max h

/-- The hybrid-score pass: `final = w * normalized + (1 - w) * (1 - i*0.05)`
over `enumerate(zip(results, scores, normalized_scores))`. -/

def hybridScores {α : Type} (w : ℚ) : ℕ → List (α × ℚ × ℚ) → List (RerankResult α)
  | _, [] => []
  | i, (r, ce, ns) :: rest =>
    ⟨r, ce, i, w * ns + (1 - w) * (1 - (i : ℚ) * (1/20))⟩ ::
      hybridScores w (i + 1) rest

/-- `CrossEncoderReranker.rerank`.  `ceAvailable` models
`CROSS_ENCODER_AVAILABLE` (the sentence-transformers import); `model` is
`None` exactly when `_load_model` failed; when present it is the
cross-encoder's `predict` over the query and extracted documents (the
title/content extraction is abstracted into `doc`).  `scoreWeight` is
`config.score_weight` and `cfgTopK` is `config.top_k`. -/

def rerank {α : Type} (ceAvailable : Bool)
    (model : Option (String → List String → List ℚ)) (doc : α → String)
    (scoreWeight : ℚ) (cfgTopK : ℕ) (query : String) (results : List α)
    (top_k : Option ℕ) : List (RerankResult α) :=
  if ceAvailable = false then fallbackRerank 0 results
  else
    let tk := resolveTopK cfgTopK top_k
    let results_to_rerank := results.take tk
    let documents := results_to_rerank.map doc
    match model with
    | none => fallbackRerank 0 results_to_rerank
    | some m =>
      let scores := m query documents
      let min_score := listMin scores
      let max_score := listMax scores
      let score_range := if max_score = min_score then 1 else max_score - min_score
      let normalized := scores.map (fun s => (s - min_score) / score_range)
      let reranked := hybridScores scoreWeight 0
        (results_to_rerank.zip (scores.zip normalized))
      reranked.mergeSort (fun a b => decide (b.final_score ≤ a.final_score))

theorem record_failure_threshold (now u : ℚ) (et : String) (h : EngineHealth) :
    (record_failure now u et h).failure_threshold = h.failure_threshold := by
  unfold record_failure
  dsimp only
  split <;> rfl

theorem record_failure_consecutive (now u : ℚ) (et : String) (h : EngineHealth) :
    (record_failure now u et h).consecutive_failures = h.consecutive_failures + 1 := by
  unfold record_failure
  dsimp only
  split <;> rfl

theorem record_failure_opens (now u : ℚ) (et : String) (h : EngineHealth)
    (hth : h.failure_threshold ≤ h.consecutive_failures + 1) :
    (record_failure now u et h).circuit_state = CircuitState.opened := by
  unfold record_failure
  dsimp only
  rw [if_pos hth]

theorem apply_failures_opens : ∀ (ps : List (ℚ × ℚ × String)) (h : EngineHealth),
    ps ≠ [] → h.failure_threshold ≤ h.consecutive_failures + ps.length →
    (apply_failures ps h).circuit_state = CircuitState.opened := by
  intro ps
  induction ps with
  | nil => intro h hne _; exact absurd rfl hne
  | cons p ps ih =>
    intro h _ hth
    cases ps with
    | nil =>
      simp only [apply_failures, List.foldl_cons, List.foldl_nil]
      exact record_failure_opens _ _ _ _ (by simpa using hth)
    | cons q qs =>
      have step : apply_failures (p :: q :: qs) h =
          apply_failures (q :: qs) (record_failure p.1 p.2.1 p.2.2 h) := rfl
      rw [step]
      apply ih _ (by simp)
      rw [record_failure_threshold, record_failure_consecutive]
      simp only [List.length_cons] at hth ⊢
      omega

/-- C1: the per-backend circuit breaker follows the specified state machine.
(a) a fresh health record starts CLOSED; (b) after `failure_threshold`
consecutive `record_failure` calls the state is OPEN (for a fresh record the
default threshold is 3); (c) while OPEN and `now - last_failure_time <
recovery_timeout`, `wait_before_request` raises `CircuitOpenError`; (d) on
the first `wait_before_request` once the timeout has elapsed the state
becomes HALF_OPEN and the request is permitted (and `consecutive_failures`
and the threshold are unchanged, so OPEN states entered with
`failure_threshold ≤ consecutive_failures` half-open with that bound
intact); (e) `record_success` in HALF_OPEN closes the circuit;
(f) `record_failure` in HALF_OPEN (which, by (b) and (d), always has
`failure_threshold ≤ consecutive_failures`) reopens it. -/

theorem circuit_breaker_state_machine :
    (∀ nm : String, (EngineHealth.init nm).circuit_state = CircuitState.closed)
    ∧ (∀ (ps : List (ℚ × ℚ × String)) (h : EngineHealth), ps ≠ [] →
        h.failure_threshold ≤ h.consecutive_failures + ps.length →
        (apply_failures ps h).circuit_state = CircuitState.opened)
    ∧ (∀ (h : EngineHealth) (now pdraw ju lr : ℚ),
        h.circuit_state = CircuitState.opened →
        now - h.last_failure_time < h.recovery_timeout →
        wait_before_request now pdraw ju lr h = Except.error ())
    ∧ (∀ (h : EngineHealth) (now pdraw ju lr : ℚ),
        h.circuit_state = CircuitState.opened →
        h.recovery_timeout ≤ now - h.last_failure_time →
        ∃ d h' l', wait_before_request now pdraw ju lr h = Except.ok (d, h', l') ∧
          h'.circuit_state = CircuitState.halfOpen ∧
          h'.consecutive_failures = h.consecutive_failures ∧
          h'.failure_threshold = h.failure_threshold)
    ∧ (∀ (h : EngineHealth) (now : ℚ),
        h.circuit_state = CircuitState.halfOpen →
        (record_success now h).circuit_state = CircuitState.closed)
    ∧ (∀ (h : EngineHealth) (now u : ℚ) (et : String),
        h.circuit_state = CircuitState.halfOpen →
        h.failure_threshold ≤ h.consecutive_failures →
        (record_failure now u et h).circuit_state = CircuitState.opened) := by
  refine ⟨fun _ => rfl, apply_failures_opens, ?_, ?_, ?_, ?_⟩
  · intro h now pdraw ju lr hop hlt
    unfold wait_before_request
    rw [if_pos hop, if_pos hlt]
  · intro h now pdraw ju lr hop hge
    unfold wait_before_request
    rw [if_pos hop, if_neg (not_lt.mpr hge)]
    exact ⟨_, _, _, rfl, rfl, rfl, rfl⟩
  · intro h now hho
    unfold record_success
    dsimp only
    rw [if_pos hho]
  · intro h now u et _ hth
    exact record_failure_opens _ _ _ _ (Nat.le_succ_of_le hth)

/-- Concrete run of the circuit-breaker theorem: three failures open a fresh
circuit; within the 60 s timeout the acquire raises; after it the acquire
half-opens; a success then closes, a failure reopens. -/

theorem circuit_breaker_state_machine_witness :
    (EngineHealth.init "brave").circuit_state = CircuitState.closed
    ∧ (apply_failures [(1, 0, "x"), (2, 0, "x"), (3, 0, "x")]
        (EngineHealth.init "brave")).circuit_state = CircuitState.opened
    ∧ wait_before_request 10 1 0 0
        (apply_failures [(1, 0, "x"), (2, 0, "x"), (3, 0, "x")]
          (EngineHealth.init "brave")) = Except.error ()
    ∧ (∃ d h' l', wait_before_request 100 1 0 0
        (apply_failures [(1, 0, "x"), (2, 0, "x"), (3, 0, "x")]
          (EngineHealth.init "brave")) = Except.ok (d, h', l') ∧
        h'.circuit_state = CircuitState.halfOpen ∧
        h'.consecutive_failures = 3 ∧
        (record_success 101 h').circuit_state = CircuitState.closed ∧
        (record_failure 101 0 "x" h').circuit_state = CircuitState.opened) := by
  obtain ⟨c1, c2, c3, c4, c5, c6⟩ := circuit_breaker_state_machine
  have hst : apply_failures [(1, 0, "x"), (2, 0, "x"), (3, 0, "x")]
      (EngineHealth.init "brave") =
      { name := "brave", consecutive_failures := 3, last_failure_time := 3,
        circuit_state := CircuitState.opened, total_failures := 3 } := by
    norm_num [apply_failures, record_failure, decorrelated_jitter_backoff,
      BASE_DELAY, MAX_DELAY, EngineHealth.init]
    decide
  have h3 := c2 [(1, 0, "x"), (2, 0, "x"), (3, 0, "x")] (EngineHealth.init "brave")
    (by simp) (by norm_num [EngineHealth.init])
  refine ⟨c1 "brave", h3, c3 _ 10 1 0 0 h3 (by rw [hst]; norm_num), ?_⟩
  obtain ⟨d, h', l', heq, hho, hcf, hth⟩ := c4 _ 100 1 0 0 h3 (by rw [hst]; norm_num)
  have hcf3 : h'.consecutive_failures = 3 := by
    rw [hcf, hst]
  exact ⟨d, h', l', heq, hho, hcf3,
    c5 h' 101 hho, c6 h' 101 0 "x" hho (by rw [hth, hcf3, hst])⟩

theorem wait_delay_no_failures (h : EngineHealth) (now pdraw ju lr : ℚ)
    (hcf : h.consecutive_failures = 0)
    (hst : h.circuit_state ≠ CircuitState.opened) :
    (wait_before_request now pdraw ju lr h).toOption.map Prod.fst =
      some (if now - lr < MIN_HUMAN_DELAY
            then max MIN_HUMAN_DELAY (min pdraw (MAX_HUMAN_DELAY * 2))
            else 0) := by
  unfold wait_before_request
  rw [if_neg hst]
  dsimp only [Except.toOption, Option.map]
  rw [hcf]
  rw [if_neg (lt_irrefl 0)]
  by_cases hlt : now - lr < MIN_HUMAN_DELAY
  · rw [if_pos hlt, if_pos hlt]
    rfl
  · rw [if_neg hlt, if_neg hlt]
    have h0 : max 0 (MIN_HUMAN_DELAY - (now - lr)) = 0 :=
      max_eq_left (by linarith [not_lt.mp hlt])
    rw [h0]

/-- C8 counterexample: with no consecutive failures, a global last-request
time of 0 and `now = 0.3` (so 0.3 s of wall time elapsed), an exponential
draw of 2 s yields a delay of exactly 2 s.  The delay is the clamped draw
itself; it is NOT the clamped draw reduced by the elapsed wall time
(which would be 1.7 s), refuting the claim as stated. -/

theorem poisson_delay_not_reduced_counterexample :
    (wait_before_request (3/10) 2 0 0 (EngineHealth.init "brave")).toOption.map
      Prod.fst = some 2 ∧
    (2 : ℚ) ≠ max MIN_HUMAN_DELAY (min 2 (MAX_HUMAN_DELAY * 2)) - ((3/10 : ℚ) - 0) := by
  constructor
  · rw [wait_delay_no_failures (EngineHealth.init "brave") (3/10) 2 0 0 rfl (by decide)]
    norm_num [MIN_HUMAN_DELAY, MAX_HUMAN_DELAY]
  · norm_num [MIN_HUMAN_DELAY, MAX_HUMAN_DELAY]

/-- C8 amended: for an acquire on a backend with `consecutive_failures = 0`
whose circuit is not OPEN, the pre-request delay is: the exponential
inter-arrival draw clamped to `[0.5 s, 6.0 s]` — with no reduction by the
elapsed wall time — whenever less than `MIN_HUMAN_DELAY = 0.5 s` has
elapsed since the global last request; and `0` otherwise. -/

theorem poisson_delay_branch (h : EngineHealth) (now pdraw ju lr : ℚ)
    (hcf : h.consecutive_failures = 0)
    (hst : h.circuit_state ≠ CircuitState.opened) :
    (wait_before_request now pdraw ju lr h).toOption.map Prod.fst =
      some (if now - lr < MIN_HUMAN_DELAY
            then max MIN_HUMAN_DELAY (min pdraw (MAX_HUMAN_DELAY * 2))
            else 0) :=
  wait_delay_no_failures h now pdraw ju lr hcf hst

/-- Concrete run of the amended delay rule: a fresh backend, 0.3 s elapsed,
draw 2 s, gives delay 2 s; with 10 s elapsed the delay is 0. -/

theorem poisson_delay_branch_witness :
    (wait_before_request (3/10) 2 0 0 (EngineHealth.init "brave")).toOption.map
      Prod.fst = some 2 ∧
    (wait_before_request 10 2 0 0 (EngineHealth.init "brave")).toOption.map
      Prod.fst = some 0 := by
  constructor
  · rw [poisson_delay_branch (EngineHealth.init "brave") (3/10) 2 0 0 rfl (by decide)]
    norm_num [MIN_HUMAN_DELAY, MAX_HUMAN_DELAY]
  · rw [poisson_delay_branch (EngineHealth.init "brave") 10 2 0 0 rfl (by decide)]
    norm_num [MIN_HUMAN_DELAY]

theorem engagement_score_bounds (p : EnginePerformance) :
    0 ≤ p.engagement_score ∧ p.engagement_score ≤ 1 := by
  unfold EnginePerformance.engagement_score
  dsimp only
  have hctr : 0 ≤ p.ctr := by
    unfold EnginePerformance.ctr
    split
    · exact le_refl 0
    · positivity
  have h1 : 0 ≤ min (p.ctr * 5) 1 := le_min (by positivity) one_pos.le
  have h2 : min (p.ctr * 5) 1 ≤ 1 := min_le_right _ _
  have hmc : (1 : ℚ) ≤ max 1 (p.clicks : ℚ) := le_max_left _ _
  have h3 : 0 ≤ min ((p.dwells : ℚ) / max 1 (p.clicks : ℚ)) 1 :=
    le_min (div_nonneg (by positivity) (by linarith)) one_pos.le
  have h4 : min ((p.dwells : ℚ) / max 1 (p.clicks : ℚ)) 1 ≤ 1 := min_le_right _ _
  have hmh : (1 : ℚ) ≤ max 1 ((p.helpful_ratings + p.not_helpful_ratings : ℕ) : ℚ) :=
    le_max_left _ _
  have h5 : 0 ≤ (p.helpful_ratings : ℚ) /
      max 1 ((p.helpful_ratings + p.not_helpful_ratings : ℕ) : ℚ) :=
    div_nonneg (by positivity) (by linarith)
  have h6 : (p.helpful_ratings : ℚ) /
      max 1 ((p.helpful_ratings + p.not_helpful_ratings : ℕ) : ℚ) ≤ 1 := by
    rw [div_le_one (by linarith)]
    calc (p.helpful_ratings : ℚ)
        ≤ ((p.helpful_ratings + p.not_helpful_ratings : ℕ) : ℚ) := by
          push_cast; linarith [Nat.cast_nonneg (α := ℚ) p.not_helpful_ratings]
      _ ≤ max 1 ((p.helpful_ratings + p.not_helpful_ratings : ℕ) : ℚ) :=
          le_max_right _ _
  have h7 : 0 ≤ (if 0 < p.clicks then 1 / max 1 p.avg_click_position else 1/2) := by
    split
    · have : (1 : ℚ) ≤ max 1 p.avg_click_position := le_max_left _ _
      positivity
    · norm_num
  have h8 : (if 0 < p.clicks then 1 / max 1 p.avg_click_position else 1/2) ≤ 1 := by
    split
    · have hpos : (1 : ℚ) ≤ max 1 p.avg_click_position := le_max_left _ _
      rw [div_le_one (by linarith)]
      exact hpos
    · norm_num
  constructor <;> nlinarith

/-- C7: `recommended_weight` always lies in `[0.5, 2.0]` and equals
`0.5 + score` below an engagement score of `0.5` and `1.0 + 2*(score - 0.5)`
at or above it; and `get_weight_adjustment` returns exactly `1.0` whenever
the `(engine, query_type)` pair has no record or the record has
`total_impressions < min_samples` (default 10). -/

theorem recommended_weight_bounds_and_default :
    (∀ p : EnginePerformance,
      1/2 ≤ p.recommended_weight ∧ p.recommended_weight ≤ 2)
    ∧ (∀ p : EnginePerformance, p.recommended_weight =
        if p.engagement_score < 1/2 then 1/2 + p.engagement_score
        else 1 + (p.engagement_score - 1/2) * 2)
    ∧ MIN_SAMPLES_DEFAULT = 10
    ∧ (∀ (ms : ℕ) (perf : List ((String × String) × EnginePerformance))
        (e qt : String),
        (alookup (e, qt) perf = none ∨
          ∃ p, alookup (e, qt) perf = some p ∧ p.total_impressions < ms) →
        get_weight_adjustment ms perf e qt = 1) := by
  refine ⟨?_, fun p => rfl, rfl, ?_⟩
  · intro p
    obtain ⟨h0, h1⟩ := engagement_score_bounds p
    unfold EnginePerformance.recommended_weight
    dsimp only
    split
    case isTrue h => constructor <;> linarith
    case isFalse h => constructor <;> linarith [not_lt.mp h]
  · intro ms perf e qt hc
    unfold get_weight_adjustment
    rcases hc with hn | ⟨p, hp, hlt⟩
    · rw [hn]
    · rw [hp]
      simp only [if_pos hlt]

/-- Concrete run: the all-zero record scores weight `0.55 ∈ [0.5, 2]`
(engagement `0.05` from the neutral position bonus), and a lookup miss as
well as a 5-impression record under the default 10-sample minimum both
return an adjustment of exactly 1. -/

theorem recommended_weight_bounds_and_default_witness :
    (1/2 ≤ (EnginePerformance.recommended_weight
        { engine := "brave", query_type := "industrial" })
      ∧ (EnginePerformance.recommended_weight
        { engine := "brave", query_type := "industrial" }) ≤ 2)
    ∧ get_weight_adjustment MIN_SAMPLES_DEFAULT [] "brave" "industrial" = 1
    ∧ get_weight_adjustment MIN_SAMPLES_DEFAULT
        [(("brave", "industrial"),
          { engine := "brave", query_type := "industrial",
            total_impressions := 5 })] "brave" "industrial" = 1 := by
  obtain ⟨hb, _, _, hd⟩ := recommended_weight_bounds_and_default
  have hlook : alookup ("brave", "industrial")
      [(("brave", "industrial"),
        ({ engine := "brave", query_type := "industrial",
           total_impressions := 5 } : EnginePerformance))] =
      some { engine := "brave", query_type := "industrial",
             total_impressions := 5 } := by
    simp [alookup]
  exact ⟨hb _, hd _ _ _ _ (Or.inl rfl),
    hd _ _ _ _ (Or.inr ⟨_, hlook, by decide⟩)⟩

theorem sortStrings_perm_eq {l l' : List String} (h : l.Perm l') :
    sortStrings l = sortStrings l' := by
  have trans : ∀ a b c : String,
      decide (a ≤ b) → decide (b ≤ c) → decide (a ≤ c) := by
    intro a b c hab hbc
    simp only [decide_eq_true_eq] at *
    exact le_trans hab hbc
  have total : ∀ a b : String, decide (a ≤ b) || decide (b ≤ a) := by
    intro a b
    rcases le_total a b with h | h <;> simp [h]
  have s1 : (sortStrings l).Sorted (· ≤ ·) :=
    (List.sorted_mergeSort trans total l).imp (fun h => by
      simpa using h)
  have s2 : (sortStrings l').Sorted (· ≤ ·) :=
    (List.sorted_mergeSort trans total l').imp (fun h => by
      simpa using h)
  exact List.eq_of_perm_of_sorted
    (((List.mergeSort_perm l _).trans h).trans (List.mergeSort_perm l' _).symm)
    s1 s2

/-- C3 counterexample: the pipe character makes the pre-hash key ambiguous.
The query `"a|b"` with no backends and the query `"a"` with backend `["b"]`
build the same key `"a|b"`, hence the same fingerprint under every hash
function, although their normalized queries differ — so equal fingerprints
do NOT imply that both the normalized query and the backend list match. -/

theorem hash_query_collision_counterexample :
    (∀ H : String → String, hash_query H "a|b" [] = hash_query H "a" ["b"])
    ∧ normalize_query "a|b" ≠ normalize_query "a" := by
  constructor
  · intro H
    unfold hash_query
    congr 1
    unfold hashKey
    simp only [List.isEmpty_cons, if_false, List.isEmpty_nil, if_true]
    rw [show sortStrings ["b"] = ["b"] from List.mergeSort_singleton "b"]
    decide
  · decide

/-- C3 amended: the fingerprint is insensitive to backend order and to query
case and surrounding whitespace — for every hash function `H`, query and
permutation of the backends the fingerprint is unchanged, and `" Q "` and
`"q"` agree for every backend list; and equal normalized queries together
with backend lists that are permutations of one another always give equal
fingerprints.  (The converse implication is refuted by the counterexample:
the `"|"`/`","` separators make the key ambiguous, and the 64-bit hash
truncation can collide as well.) -/

theorem hash_query_insensitivity :
    (∀ (H : String → String) (q : String) (bs bs' : List String),
      bs.Perm bs' → hash_query H q bs = hash_query H q bs')
    ∧ (∀ (H : String → String) (bs : List String),
      hash_query H " Q " bs = hash_query H "q" bs)
    ∧ (∀ (H : String → String) (q q' : String) (bs bs' : List String),
      normalize_query q = normalize_query q' → bs.Perm bs' →
      hash_query H q bs = hash_query H q' bs') := by
  have key : ∀ (q q' : String) (bs bs' : List String),
      normalize_query q = normalize_query q' → bs.Perm bs' →
      hashKey q bs = hashKey q' bs' := by
    intro q q' bs bs' hq hperm
    unfold hashKey
    rw [hq, sortStrings_perm_eq hperm]
    cases bs with
    | nil => rw [hperm.nil_eq.symm]
    | cons b bs =>
      cases bs' with
      | nil => exact absurd hperm.symm.nil_eq (by simp)
      | cons b' bs' => rfl
  refine ⟨fun H q bs bs' hperm => congrArg H (key q q bs bs' rfl hperm),
    fun H bs => congrArg H (key " Q " "q" bs bs (by decide) (List.Perm.refl bs)),
    fun H q q' bs bs' hq hperm => congrArg H (key q q' bs bs' hq hperm)⟩

/-- Concrete run of the fingerprint-insensitivity theorem: swapping the two
backends, and upper-casing plus padding the query, leave the key unchanged. -/

theorem hash_query_insensitivity_witness :
    hash_query id "fanuc" ["brave", "bing"] = hash_query id "fanuc" ["bing", "brave"]
    ∧ hash_query id " Q " ["brave"] = hash_query id "q" ["brave"]
    ∧ hash_query id " FANUC " ["brave", "bing"] =
        hash_query id "fanuc" ["bing", "brave"] := by
  obtain ⟨h1, h2, h3⟩ := hash_query_insensitivity
  exact ⟨h1 id "fanuc" _ _ (List.Perm.swap _ _ _),
    h2 id ["brave"],
    h3 id " FANUC " "fanuc" _ _ (by decide) (List.Perm.swap _ _ _)⟩

theorem getL2_fresh (embed l2query qdrantOn now query st e lvl)
    (h : (getL2 embed l2query qdrantOn now query st).1 = (some e, lvl)) :
    lvl = "l2" ∧ now - e.timestamp ≤ e.ttl_seconds := by
  unfold getL2 at h
  rcases hm : (if qdrantOn then (embed query).bind (l2query st.l2) else none) with
    _ | entry <;> rw [hm] at h <;> dsimp only at h
  · exact absurd h (by simp [cacheMiss])
  · by_cases hexp : entry.is_expired now
    · rw [if_pos hexp] at h
      exact absurd h (by simp [cacheMiss])
    · rw [if_neg hexp] at h
      dsimp only at h
      obtain ⟨h1, h2⟩ := Prod.mk.injEq .. ▸ h
      obtain rfl := Option.some.injEq .. ▸ h1.symm
      refine ⟨h2.symm, ?_⟩
      unfold CacheEntry.is_expired at hexp
      simp only [decide_eq_true_eq] at hexp
      push_neg at hexp
      dsimp only
      linarith

/-- C2: the cache never returns a stale entry.  Whenever `SemanticCache.get`
returns an entry (necessarily at level "l1" or "l2"), the entry satisfies
`now - timestamp ≤ ttl_seconds`; an expired entry found in either tier is
passed over (the L1 tier falls through to L2, the L2 tier to a miss). -/

theorem cache_get_freshness (H embed l2query redisOn qdrantOn now query engines st
    e lvl) (h : (SemanticCache.get H embed l2query redisOn qdrantOn now query
      engines st).1 = (some e, lvl)) :
    (lvl = "l1" ∨ lvl = "l2") ∧ now - e.timestamp ≤ e.ttl_seconds := by
  unfold SemanticCache.get at h
  dsimp only at h
  rcases hm : (if redisOn then alookup (hash_query H query engines) st.l1 else none)
    with _ | entry <;> rw [hm] at h <;> dsimp only at h
  · obtain ⟨h1, h2⟩ := getL2_fresh _ _ _ _ _ _ _ _ h
    exact ⟨Or.inr h1, h2⟩
  · by_cases hexp : entry.is_expired now
    · rw [if_pos hexp] at h
      obtain ⟨h1, h2⟩ := getL2_fresh _ _ _ _ _ _ _ _ h
      exact ⟨Or.inr h1, h2⟩
    · rw [if_neg hexp] at h
      dsimp only at h
      obtain ⟨h1, h2⟩ := Prod.mk.injEq .. ▸ h
      obtain rfl := Option.some.injEq .. ▸ h1.symm
      refine ⟨Or.inl h2.symm, ?_⟩
      unfold CacheEntry.is_expired at hexp
      simp only [decide_eq_true_eq] at hexp
      push_neg at hexp
      dsimp only
      linarith

theorem if_bool_some {α : Type} {b : Bool} {x : Option α} {v : α}
    (h : (if b then x else none) = some v) : x = some v := by
  cases b
  · exact absurd h (by simp)
  · simpa using h

theorem getL2_frame (embed l2query qdrantOn now query st) :
    ((getL2 embed l2query qdrantOn now query st).2.l1 = st.l1
      ∧ (getL2 embed l2query qdrantOn now query st).2.l2 = st.l2)
    ∧ (∀ e lvl, (getL2 embed l2query qdrantOn now query st).1 = (some e, lvl) →
      ∃ e₀, e = { e₀ with hit_count := e₀.hit_count + 1 } ∧
        (embed query).bind (l2query st.l2) = some e₀) := by
  unfold getL2
  rcases hm : (if qdrantOn then (embed query).bind (l2query st.l2) else none) with
    _ | entry <;> dsimp only
  · exact ⟨⟨rfl, rfl⟩, fun e lvl h => absurd h (by simp [cacheMiss])⟩
  · by_cases hexp : entry.is_expired now
    · rw [if_pos hexp]
      exact ⟨⟨rfl, rfl⟩, fun e lvl h => absurd h (by simp [cacheMiss])⟩
    · rw [if_neg hexp]
      refine ⟨⟨rfl, rfl⟩, fun e lvl h => ?_⟩
      dsimp only at h
      obtain ⟨h1, h2⟩ := Prod.mk.injEq .. ▸ h
      obtain rfl := Option.some.injEq .. ▸ h1.symm
      exact ⟨entry, rfl, if_bool_some hm⟩

/-- C10: `SemanticCache.get` is read-only on both stores.  A single call
leaves the L1 key-value store and the L2 point collection exactly as they
were (only the in-memory statistics change); every entry it returns is the
stored entry with `hit_count` incremented only on that returned copy; and
hence any sequence of `get` calls leaves both stores bit-for-bit as the
last `store` left them. -/

theorem cache_get_read_only :
    (∀ (H embed l2query redisOn qdrantOn now query engines st),
      (SemanticCache.get H embed l2query redisOn qdrantOn now query engines
        st).2.l1 = st.l1
      ∧ (SemanticCache.get H embed l2query redisOn qdrantOn now query engines
        st).2.l2 = st.l2)
    ∧ (∀ (H embed l2query redisOn qdrantOn now query engines st e lvl),
      (SemanticCache.get H embed l2query redisOn qdrantOn now query engines
        st).1 = (some e, lvl) →
      ∃ e₀, e = { e₀ with hit_count := e₀.hit_count + 1 } ∧
        (alookup (hash_query H query engines) st.l1 = some e₀ ∨
         (embed query).bind (l2query st.l2) = some e₀))
    ∧ (∀ (calls : List GetCall) (st : CacheState),
      (run_gets calls st).l1 = st.l1 ∧ (run_gets calls st).l2 = st.l2) := by
  have frame : ∀ (H embed l2query redisOn qdrantOn now query engines st),
      (SemanticCache.get H embed l2query redisOn qdrantOn now query engines
        st).2.l1 = st.l1
      ∧ (SemanticCache.get H embed l2query redisOn qdrantOn now query engines
        st).2.l2 = st.l2 := by
    intro H embed l2query redisOn qdrantOn now query engines st
    unfold SemanticCache.get
    dsimp only
    rcases hm : (if redisOn then alookup (hash_query H query engines) st.l1
      else none) with _ | entry <;> dsimp only
    · exact (getL2_frame embed l2query qdrantOn now query st).1
    · by_cases hexp : entry.is_expired now
      · rw [if_pos hexp]
        exact (getL2_frame embed l2query qdrantOn now query st).1
      · rw [if_neg hexp]
        exact ⟨rfl, rfl⟩
  refine ⟨frame, ?_, ?_⟩
  · intro H embed l2query redisOn qdrantOn now query engines st e lvl h
    unfold SemanticCache.get at h
    dsimp only at h
    rcases hm : (if redisOn then alookup (hash_query H query engines) st.l1
      else none) with _ | entry <;> rw [hm] at h <;> dsimp only at h
    · obtain ⟨e₀, he, hm2⟩ := (getL2_frame embed l2query qdrantOn now query st).2
        e lvl h
      exact ⟨e₀, he, Or.inr hm2⟩
    · by_cases hexp : entry.is_expired now
      · rw [if_pos hexp] at h
        obtain ⟨e₀, he, hm2⟩ := (getL2_frame embed l2query qdrantOn now query
          st).2 e lvl h
        exact ⟨e₀, he, Or.inr hm2⟩
      · rw [if_neg hexp] at h
        obtain ⟨h1, h2⟩ := Prod.mk.injEq .. ▸ h
        obtain rfl := Option.some.injEq .. ▸ h1.symm
        exact ⟨entry, rfl, Or.inl (if_bool_some hm)⟩
  · intro calls
    induction calls with
    | nil => exact fun st => ⟨rfl, rfl⟩
    | cons c cs ih =>
      intro st
      have step : run_gets (c :: cs) st =
          run_gets cs ((SemanticCache.get c.H c.embed c.l2query c.redisOn
            c.qdrantOn c.now c.query c.engines st).2) := rfl
      rw [step]
      obtain ⟨ihl1, ihl2⟩ := ih ((SemanticCache.get c.H c.embed c.l2query
        c.redisOn c.qdrantOn c.now c.query c.engines st).2)
      obtain ⟨f1, f2⟩ := frame c.H c.embed c.l2query c.redisOn c.qdrantOn c.now
        c.query c.engines st
      exact ⟨ihl1.trans f1, ihl2.trans f2⟩

theorem concrete_get_eval :
    SemanticCache.get id (fun _ => none) (fun _ _ => none) true true 5 "q" []
      testCacheState =
    ((some { testEntry with hit_count := testEntry.hit_count + 1 }, "l1"),
     { l1 := [("q", testEntry)], l2 := [], stats := { l1_hits := 1 } }) := by
  have hq : hash_query id "q" [] = "q" := by decide
  have hexp : CacheEntry.is_expired 5 testEntry = false := by
    simp only [CacheEntry.is_expired, testEntry, decide_eq_false_iff_not]
    norm_num
  unfold SemanticCache.get testCacheState
  dsimp only
  rw [hq]
  have ha : alookup "q" [("q", testEntry)] = some testEntry := by
    simp [alookup]
  rw [if_pos rfl, ha]
  dsimp only
  rw [hexp]
  rfl

/-- Concrete run of the freshness theorem: an L1 entry stored at time 0 with
a 10 s TTL is returned at `now = 5` at level "l1", and the theorem yields
`now - timestamp ≤ ttl`. -/

theorem cache_get_freshness_witness :
    ((SemanticCache.get id (fun _ => none) (fun _ _ => none) true true 5 "q" []
      testCacheState).1 =
        (some { testEntry with hit_count := testEntry.hit_count + 1 }, "l1"))
    ∧ ("l1" = "l1" ∨ "l1" = "l2")
    ∧ (5 : ℚ) - ({ testEntry with
        hit_count := testEntry.hit_count + 1 } : CacheEntry).timestamp ≤
      ({ testEntry with
        hit_count := testEntry.hit_count + 1 } : CacheEntry).ttl_seconds := by
  have h1 := congrArg Prod.fst concrete_get_eval
  obtain ⟨ha, hb⟩ := cache_get_freshness id (fun _ => none) (fun _ _ => none)
    true true 5 "q" [] testCacheState _ _ h1
  exact ⟨h1, ha, hb⟩

/-- Concrete run of the read-only theorem: the L1 hit above leaves both
stores unchanged, and the returned entry is the stored one with its hit
count bumped only on the copy. -/

theorem cache_get_read_only_witness :
    ((SemanticCache.get id (fun _ => none) (fun _ _ => none) true true 5 "q" []
      testCacheState).2.l1 = testCacheState.l1)
    ∧ ((SemanticCache.get id (fun _ => none) (fun _ _ => none) true true 5 "q"
      [] testCacheState).2.l2 = testCacheState.l2)
    ∧ (∃ e₀ : CacheEntry,
        ({ testEntry with hit_count := testEntry.hit_count + 1 } : CacheEntry) =
          { e₀ with hit_count := e₀.hit_count + 1 } ∧
        (alookup (hash_query id "q" []) testCacheState.l1 = some e₀ ∨
         ((fun (_ : String) => (none : Option (List ℚ))) "q").bind
           ((fun (_ : List (Int × List ℚ × CacheEntry)) (_ : List ℚ) =>
             (none : Option CacheEntry)) testCacheState.l2) = some e₀)) := by
  obtain ⟨frame, copy, _⟩ := cache_get_read_only
  obtain ⟨f1, f2⟩ := frame id (fun _ => none) (fun _ _ => none) true true 5 "q"
    [] testCacheState
  exact ⟨f1, f2, copy id (fun _ => none) (fun _ _ => none) true true 5 "q" []
    testCacheState _ _ (congrArg Prod.fst concrete_get_eval)⟩

theorem alookup_append {α β : Type} [DecidableEq α] (k : α) :
    ∀ (l l' : List (α × β)), alookup k (l ++ l') =
      match alookup k l with
      | some v => some v
      | none => alookup k l' := by
  intro l l'
  induction l with
  | nil => rfl
  | cons p ps ih =>
    by_cases hp : p.1 = k
    · simp [alookup, hp]
    · simp [alookup, hp, ih]

theorem alookup_none_iff {α β : Type} [DecidableEq α] (k : α) :
    ∀ (l : List (α × β)), alookup k l = none ↔ ∀ p ∈ l, p.1 ≠ k := by
  intro l
  induction l with
  | nil => simp [alookup]
  | cons p ps ih =>
    by_cases hp : p.1 = k
    · simp [alookup, hp]
    · simp [alookup, hp, ih]

theorem alookup_map_update {α β : Type} [DecidableEq α] (k : α) (g : β → β) :
    ∀ l : List (α × β),
      alookup k (l.map (fun p => if p.1 = k then (p.1, g p.2) else p)) =
        (alookup k l).map g := by
  intro l
  induction l with
  | nil => rfl
  | cons p ps ih =>
    by_cases hp : p.1 = k
    · simp [alookup, hp]
    · simp [alookup, hp, ih]

theorem alookup_map_update_ne {α β : Type} [DecidableEq α] {k k' : α}
    (hkk : k' ≠ k) (g : β → β) :
    ∀ l : List (α × β),
      alookup k' (l.map (fun p => if p.1 = k then (p.1, g p.2) else p)) =
        alookup k' l := by
  intro l
  induction l with
  | nil => rfl
  | cons p ps ih =>
    by_cases hp : p.1 = k
    · have h1 : p.1 ≠ k' := by rw [hp]; exact fun h => hkk h.symm
      have h2 : ¬(k = k') := fun h => hkk h.symm
      simp [alookup, hp, h1, h2, ih]
    · by_cases hp' : p.1 = k'
      · simp [alookup, hp, hp', hkk]
      · simp [alookup, hp, hp', ih]

theorem alookup_of_mem_nodup {α β : Type} [DecidableEq α] {k : α} {v : β} :
    ∀ {l : List (α × β)}, (l.map Prod.fst).Nodup → (k, v) ∈ l →
      alookup k l = some v := by
  intro l
  induction l with
  | nil => intro _ h; exact absurd h (by simp)
  | cons p ps ih =>
    intro hnd hm
    rcases List.mem_cons.mp hm with heq | htail
    · rw [← heq]
      simp [alookup]
    · have hne : p.1 ≠ k := by
        intro hk
        have : k ∈ ps.map Prod.fst :=
          List.mem_map.mpr ⟨(k, v), htail, rfl⟩
        rw [List.map_cons, List.nodup_cons] at hnd
        exact hnd.1 (hk ▸ this)
      simp only [alookup, if_neg hne]
      exact ih (by
        rw [List.map_cons, List.nodup_cons] at hnd
        exact hnd.2) htail

theorem mem_of_alookup {α β : Type} [DecidableEq α] {k : α} {v : β} :
    ∀ {l : List (α × β)}, alookup k l = some v → (k, v) ∈ l := by
  intro l
  induction l with
  | nil => intro h; exact absurd h (by simp [alookup])
  | cons p ps ih =>
    intro h
    by_cases hp : p.1 = k
    · simp only [alookup, if_pos hp] at h
      obtain rfl := Option.some.injEq .. ▸ h.symm
      have hkp : (k, p.2) = p := by rw [← hp]
      rw [hkp]
      exact List.mem_cons_self p ps
    · simp only [alookup, if_neg hp] at h
      exact List.mem_cons.mpr (Or.inr (ih h))

theorem alookup_addResult (cfg : FusionConfig) (e : String) (k : ℕ)
    (r : SearchResult) (gs : List (String × FusedResult)) (nu : String) :
    alookup nu (addResult cfg e k r gs) = stepGroup cfg e nu k r (alookup nu gs) := by
  unfold addResult stepGroup
  by_cases hurl : r.url = ""
  · rw [if_pos hurl, if_neg (by simp [hurl])]
  · rw [if_neg hurl]
    dsimp only
    by_cases hnu : cfg.normalizer r.url = nu
    · rw [hnu]
      rcases hm : alookup nu gs with _ | f₀
      · dsimp only
        rw [if_pos ⟨hurl, rfl⟩, alookup_append, hm]
        simp [alookup]
      · dsimp only
        rw [if_pos ⟨hurl, rfl⟩, alookup_map_update, hm]
        rfl
    · rw [if_neg (fun hc => hnu hc.2)]
      rcases hm : alookup (cfg.normalizer r.url) gs with _ | f₀
      · dsimp only
        rw [alookup_append]
        rcases hg : alookup nu gs with _ | v
        · dsimp only
          simp only [alookup]
          rw [if_neg hnu]
        · dsimp only
      · dsimp only
        exact alookup_map_update_ne (fun h => hnu h.symm) _ gs

theorem alookup_addResults (cfg : FusionConfig) (e : String) (nu : String) :
    ∀ (rs : List SearchResult) (rank : ℕ) (gs : List (String × FusedResult)),
      alookup nu (addResults cfg e rank rs gs) =
        runGroup cfg e nu rank rs (alookup nu gs) := by
  intro rs
  induction rs with
  | nil => intro rank gs; rfl
  | cons r rs ih =>
    intro rank gs
    show alookup nu (addResults cfg e (rank + 1) rs (addResult cfg e rank r gs)) =
      runGroup cfg e nu (rank + 1) rs (stepGroup cfg e nu rank r (alookup nu gs))
    rw [ih, alookup_addResult]

theorem alookup_fuseGroups (cfg : FusionConfig) (nu : String) :
    ∀ (inputs : List (String × List SearchResult)),
      alookup nu (fuseGroups cfg inputs) = runInputs cfg nu inputs none := by
  have gen : ∀ (inputs : List (String × List SearchResult))
      (gs : List (String × FusedResult)),
      alookup nu (inputs.foldl (fun gs p => addResults cfg p.1 1 p.2 gs) gs) =
        runInputs cfg nu inputs (alookup nu gs) := by
    intro inputs
    induction inputs with
    | nil => intro gs; rfl
    | cons p ps ih =>
      intro gs
      show alookup nu (ps.foldl _ (addResults cfg p.1 1 p.2 gs)) =
        runInputs cfg nu ps (runGroup cfg p.1 nu 1 p.2 (alookup nu gs))
      rw [ih, alookup_addResults]
  intro inputs
  exact gen inputs []

theorem keys_addResult_nodup (cfg : FusionConfig) (e : String) (k : ℕ)
    (r : SearchResult) (gs : List (String × FusedResult))
    (h : (gs.map Prod.fst).Nodup) :
    ((addResult cfg e k r gs).map Prod.fst).Nodup := by
  unfold addResult
  by_cases hurl : r.url = ""
  · rw [if_pos hurl]; exact h
  · rw [if_neg hurl]
    dsimp only
    rcases hm : alookup (cfg.normalizer r.url) gs with _ | f₀
    · dsimp only
      rw [List.map_append]
      have hfresh : cfg.normalizer r.url ∉ gs.map Prod.fst := by
        intro hmem
        obtain ⟨p, hp, hp1⟩ := List.mem_map.mp hmem
        exact (alookup_none_iff _ gs).mp hm p hp hp1
      simp only [List.map_cons, List.map_nil]
      exact List.Nodup.append h (List.nodup_singleton _)
        (by
          intro a ha hb
          rw [List.mem_singleton] at hb
          exact hfresh (hb ▸ ha))
    · dsimp only
      have hkeys : (gs.map (fun p =>
          if p.1 = cfg.normalizer r.url then (p.1, updateFused e k r p.2)
          else p)).map Prod.fst = gs.map Prod.fst := by
        rw [List.map_map]
        apply List.map_congr_left
        intro p _
        by_cases hp : p.1 = cfg.normalizer r.url <;> simp [hp]
      rw [hkeys]
      exact h

theorem keys_addResults_nodup (cfg : FusionConfig) (e : String) :
    ∀ (rs : List SearchResult) (rank : ℕ) (gs : List (String × FusedResult)),
      (gs.map Prod.fst).Nodup →
      ((addResults cfg e rank rs gs).map Prod.fst).Nodup := by
  intro rs
  induction rs with
  | nil => intro rank gs h; exact h
  | cons r rs ih =>
    intro rank gs h
    exact ih (rank + 1) _ (keys_addResult_nodup cfg e rank r gs h)

theorem keys_fuseGroups_nodup (cfg : FusionConfig)
    (inputs : List (String × List SearchResult)) :
    ((fuseGroups cfg inputs).map Prod.fst).Nodup := by
  have gen : ∀ (inputs : List (String × List SearchResult))
      (gs : List (String × FusedResult)), (gs.map Prod.fst).Nodup →
      ((inputs.foldl (fun gs p => addResults cfg p.1 1 p.2 gs) gs).map
        Prod.fst).Nodup := by
    intro inputs
    induction inputs with
    | nil => intro gs h; exact h
    | cons p ps ih =>
      intro gs h
      exact ih _ (keys_addResults_nodup cfg p.1 p.2 1 gs h)
  exact gen inputs [] (by simp)

theorem updateFused_engines (e : String) (k : ℕ) (r : SearchResult)
    (f : FusedResult) : (updateFused e k r f).engines = f.engines ++ [e] := by
  unfold updateFused
  dsimp only
  split <;> split <;> rfl

theorem updateFused_ranks (e : String) (k : ℕ) (r : SearchResult)
    (f : FusedResult) :
    (updateFused e k r f).original_ranks = assocSet e k f.original_ranks := by
  unfold updateFused
  dsimp only
  split <;> split <;> rfl

theorem updateFused_url (e : String) (k : ℕ) (r : SearchResult)
    (f : FusedResult) : (updateFused e k r f).url = f.url := by
  unfold updateFused
  dsimp only
  split <;> split <;> rfl

theorem alookup_assocSet {α β : Type} [DecidableEq α] (k k' : α) (v : β) :
    ∀ l : List (α × β), alookup k' (assocSet k v l) =
      if k' = k then some v else alookup k' l := by
  intro l
  induction l with
  | nil =>
    by_cases hk : k' = k
    · simp [assocSet, alookup, hk]
    · simp [assocSet, alookup, hk, Ne.symm hk]
  | cons p ps ih =>
    by_cases hp : p.1 = k
    · by_cases hk : k' = k
      · simp [assocSet, alookup, hp, hk]
      · have : ¬ (k = k') := fun h => hk h.symm
        simp [assocSet, alookup, hp, hk, this]
    · by_cases hpk : p.1 = k'
      · have : k' ≠ k := by rw [← hpk]; exact hp
        simp [assocSet, alookup, hp, hpk, this]
      · simp [assocSet, alookup, hp, hpk, ih]

theorem runGroup_none_iff (cfg : FusionConfig) (e : String) (nu : String) :
    ∀ (rs : List SearchResult) (rank : ℕ) (o : Option FusedResult),
      runGroup cfg e nu rank rs o = none ↔ (o = none ∧ ¬ hasMatch cfg nu rs) := by
  intro rs
  induction rs with
  | nil =>
    intro rank o
    simp [runGroup, hasMatch]
  | cons r rs ih =>
    intro rank o
    show runGroup cfg e nu (rank + 1) rs (stepGroup cfg e nu rank r o) = none ↔ _
    rw [ih]
    unfold stepGroup
    by_cases hc : r.url ≠ "" ∧ cfg.normalizer r.url = nu
    · rw [if_pos hc]
      constructor
      · intro ⟨h, _⟩; exact absurd h (by simp)
      · intro ⟨_, hnm⟩
        exact absurd ⟨r, List.mem_cons_self r rs, hc⟩ hnm
    · rw [if_neg hc]
      constructor
      · intro ⟨ho, hnm⟩
        refine ⟨ho, fun hm => ?_⟩
        obtain ⟨r', hr', hr'c⟩ := hm
        rcases List.mem_cons.mp hr' with rfl | htail
        · exact hc hr'c
        · exact hnm ⟨r', htail, hr'c⟩
      · intro ⟨ho, hnm⟩
        exact ⟨ho, fun ⟨r', hr', hr'c⟩ => hnm ⟨r', List.mem_cons_of_mem r hr', hr'c⟩⟩

theorem runGroup_spec (cfg : FusionConfig) (e : String) (nu : String) :
    ∀ (rs : List SearchResult) (rank : ℕ) (o : Option FusedResult)
      (f : FusedResult), runGroup cfg e nu rank rs o = some f →
      (∀ x, x ∈ f.engines ↔ (x ∈ engsOf o ∨ (x = e ∧ hasMatch cfg nu rs)))
      ∧ (∀ x, (alookup x f.original_ranks).isSome ↔
          ((∃ f₀, o = some f₀ ∧ (alookup x f₀.original_ranks).isSome)
            ∨ (x = e ∧ hasMatch cfg nu rs)))
      ∧ (match o with
         | some f₀ => f.url = f₀.url
         | none => f.url ≠ "" ∧ cfg.normalizer f.url = nu) := by
  intro rs
  induction rs with
  | nil =>
    intro rank o f h
    obtain rfl : o = some f := h
    refine ⟨fun x => ?_, fun x => ?_, rfl⟩
    · simp [engsOf, hasMatch]
    · simp [hasMatch]
  | cons r rs ih =>
    intro rank o f h
    replace h : runGroup cfg e nu (rank + 1) rs (stepGroup cfg e nu rank r o) =
      some f := h
    by_cases hc : r.url ≠ "" ∧ cfg.normalizer r.url = nu
    · have hstep : stepGroup cfg e nu rank r o =
          some (updateFused e rank r (o.getD (newFused r))) := by
        unfold stepGroup
        rw [if_pos hc]
      rw [hstep] at h
      obtain ⟨he, hr, hu⟩ := ih (rank + 1) _ f h
      have hmatch : hasMatch cfg nu (r :: rs) :=
        ⟨r, List.mem_cons_self r rs, hc⟩
      have hbase_engines : (updateFused e rank r (o.getD (newFused r))).engines =
          engsOf o ++ [e] := by
        rw [updateFused_engines]
        cases o <;> rfl
      have hbase_ranks : ∀ x,
          (alookup x (updateFused e rank r (o.getD (newFused r))).original_ranks).isSome ↔
          ((∃ f₀, o = some f₀ ∧ (alookup x f₀.original_ranks).isSome) ∨ x = e) := by
        intro x
        rw [updateFused_ranks, alookup_assocSet]
        by_cases hx : x = e
        · simp [hx]
        · rw [if_neg hx]
          cases o with
          | none => simp [newFused, alookup, hx]
          | some f₀ => simp [hx]
      refine ⟨fun x => ?_, fun x => ?_, ?_⟩
      · rw [he x]
        simp only [engsOf, hbase_engines]
        constructor
        · intro hcase
          rcases hcase with hmem | ⟨rfl, _⟩
          · rcases List.mem_append.mp hmem with hmem | hmem
            · exact Or.inl hmem
            · exact Or.inr ⟨List.mem_singleton.mp hmem, hmatch⟩
          · exact Or.inr ⟨rfl, hmatch⟩
        · intro hcase
          rcases hcase with hmem | ⟨rfl, _⟩
          · exact Or.inl (List.mem_append.mpr (Or.inl hmem))
          · exact Or.inl (List.mem_append.mpr (Or.inr (List.mem_singleton.mpr rfl)))
      · rw [hr x]
        constructor
        · intro hcase
          rcases hcase with ⟨f₁, hf₁, hs⟩ | ⟨rfl, _⟩
          · obtain rfl := Option.some.injEq .. ▸ hf₁.symm
            rcases (hbase_ranks x).mp hs with hold | rfl
            · exact Or.inl hold
            · exact Or.inr ⟨rfl, hmatch⟩
          · exact Or.inr ⟨rfl, hmatch⟩
        · intro hcase
          rcases hcase with ⟨f₀, hf₀, hs⟩ | ⟨rfl, _⟩
          · exact Or.inl ⟨_, rfl, (hbase_ranks x).mpr (Or.inl ⟨f₀, hf₀, hs⟩)⟩
          · exact Or.inl ⟨_, rfl, (hbase_ranks x).mpr (Or.inr rfl)⟩
      · have hu' : f.url = (updateFused e rank r (o.getD (newFused r))).url := hu
        rw [updateFused_url] at hu'
        cases o with
        | some f₀ => exact hu'
        | none =>
          have : f.url = r.url := hu'
          rw [this]
          exact hc
    · have hstep : stepGroup cfg e nu rank r o = o := by
        unfold stepGroup
        rw [if_neg hc]
      rw [hstep] at h
      obtain ⟨he, hr, hu⟩ := ih (rank + 1) o f h
      have hmatch_iff : hasMatch cfg nu (r :: rs) ↔ hasMatch cfg nu rs := by
        constructor
        · intro ⟨r', hr', hr'c⟩
          rcases List.mem_cons.mp hr' with rfl | htail
          · exact absurd hr'c hc
          · exact ⟨r', htail, hr'c⟩
        · intro ⟨r', hr', hr'c⟩
          exact ⟨r', List.mem_cons_of_mem r hr', hr'c⟩
      refine ⟨fun x => ?_, fun x => ?_, hu⟩
      · rw [he x, hmatch_iff]
      · rw [hr x, hmatch_iff]

theorem runInputs_spec (cfg : FusionConfig) (nu : String) :
    ∀ (inputs : List (String × List SearchResult)) (o : Option FusedResult)
      (f : FusedResult), runInputs cfg nu inputs o = some f →
      (∀ x, x ∈ f.engines ↔
        (x ∈ engsOf o ∨ ∃ p ∈ inputs, x = p.1 ∧ hasMatch cfg nu p.2))
      ∧ (∀ x, (alookup x f.original_ranks).isSome ↔
          ((∃ f₀, o = some f₀ ∧ (alookup x f₀.original_ranks).isSome)
            ∨ ∃ p ∈ inputs, x = p.1 ∧ hasMatch cfg nu p.2))
      ∧ (match o with
         | some f₀ => f.url = f₀.url
         | none => f.url ≠ "" ∧ cfg.normalizer f.url = nu) := by
  intro inputs
  induction inputs with
  | nil =>
    intro o f h
    obtain rfl : o = some f := h
    exact ⟨fun x => by simp [engsOf], fun x => by simp, rfl⟩
  | cons p ps ih =>
    intro o f h
    replace h : runInputs cfg nu ps (runGroup cfg p.1 nu 1 p.2 o) = some f := h
    rcases ho' : runGroup cfg p.1 nu 1 p.2 o with _ | f₁
    · rw [ho'] at h
      obtain ⟨rfl, hnm⟩ := (runGroup_none_iff cfg p.1 nu p.2 1 o).mp ho'
      obtain ⟨he, hr, hu⟩ := ih none f h
      refine ⟨fun x => ?_, fun x => ?_, hu⟩
      · rw [he x]
        constructor
        · intro hcase
          rcases hcase with hbase | ⟨q, hq, hqx⟩
          · exact Or.inl hbase
          · exact Or.inr ⟨q, List.mem_cons_of_mem p hq, hqx⟩
        · intro hcase
          rcases hcase with hbase | ⟨q, hq, hqx⟩
          · exact Or.inl hbase
          · rcases List.mem_cons.mp hq with rfl | htail
            · exact absurd hqx.2 hnm
            · exact Or.inr ⟨q, htail, hqx⟩
      · rw [hr x]
        constructor
        · intro hcase
          rcases hcase with ⟨f₀, hf₀, _⟩ | ⟨q, hq, hqx⟩
          · exact absurd hf₀ (by simp)
          · exact Or.inr ⟨q, List.mem_cons_of_mem p hq, hqx⟩
        · intro hcase
          rcases hcase with ⟨f₀, hf₀, _⟩ | ⟨q, hq, hqx⟩
          · exact absurd hf₀ (by simp)
          · rcases List.mem_cons.mp hq with rfl | htail
            · exact absurd hqx.2 hnm
            · exact Or.inr ⟨q, htail, hqx⟩
    · rw [ho'] at h
      obtain ⟨ge, gr, gu⟩ := runGroup_spec cfg p.1 nu p.2 1 o f₁ ho'
      obtain ⟨he, hr, hu⟩ := ih (some f₁) f h
      refine ⟨fun x => ?_, fun x => ?_, ?_⟩
      · rw [he x]
        simp only [engsOf]
        rw [ge x]
        constructor
        · intro hcase
          rcases hcase with (hbase | ⟨rfl, hm⟩) | ⟨q, hq, hqx⟩
          · exact Or.inl hbase
          · exact Or.inr ⟨p, List.mem_cons_self p ps, rfl, hm⟩
          · exact Or.inr ⟨q, List.mem_cons_of_mem p hq, hqx⟩
        · intro hcase
          rcases hcase with hbase | ⟨q, hq, hqx⟩
          · exact Or.inl (Or.inl hbase)
          · rcases List.mem_cons.mp hq with rfl | htail
            · exact Or.inl (Or.inr hqx)
            · exact Or.inr ⟨q, htail, hqx⟩
      · rw [hr x]
        constructor
        · intro hcase
          rcases hcase with ⟨f₁', hf₁', hs⟩ | ⟨q, hq, hqx⟩
          · obtain rfl := Option.some.injEq .. ▸ hf₁'.symm
            rcases (gr x).mp hs with hbase | ⟨rfl, hm⟩
            · exact Or.inl hbase
            · exact Or.inr ⟨p, List.mem_cons_self p ps, rfl, hm⟩
          · exact Or.inr ⟨q, List.mem_cons_of_mem p hq, hqx⟩
        · intro hcase
          rcases hcase with hbase | ⟨q, hq, hqx⟩
          · exact Or.inl ⟨f₁, rfl, (gr x).mpr (Or.inl hbase)⟩
          · rcases List.mem_cons.mp hq with rfl | htail
            · exact Or.inl ⟨f₁, rfl, (gr x).mpr (Or.inr hqx)⟩
            · exact Or.inr ⟨q, htail, hqx⟩
      · have hu' : f.url = f₁.url := hu
        cases o with
        | some f₀ => exact hu'.trans gu
        | none => exact hu' ▸ gu

theorem runInputs_none_iff (cfg : FusionConfig) (nu : String) :
    ∀ (inputs : List (String × List SearchResult)) (o : Option FusedResult),
      runInputs cfg nu inputs o = none ↔
        (o = none ∧ ¬ ∃ p ∈ inputs, hasMatch cfg nu p.2) := by
  intro inputs
  induction inputs with
  | nil =>
    intro o
    simp [runInputs]
  | cons p ps ih =>
    intro o
    show runInputs cfg nu ps (runGroup cfg p.1 nu 1 p.2 o) = none ↔ _
    rw [ih, runGroup_none_iff]
    constructor
    · intro ⟨⟨ho, hnm⟩, hnone⟩
      refine ⟨ho, fun hex => ?_⟩
      obtain ⟨q, hq, hqm⟩ := hex
      rcases List.mem_cons.mp hq with rfl | htail
      · exact hnm hqm
      · exact hnone ⟨q, htail, hqm⟩
    · intro ⟨ho, hnone⟩
      exact ⟨⟨ho, fun hm => hnone ⟨p, List.mem_cons_self p ps, hm⟩⟩,
        fun ⟨q, hq, hqm⟩ => hnone ⟨q, List.mem_cons_of_mem p hq, hqm⟩⟩

theorem scoreFused_engines (cfg : FusionConfig) (n : ℕ) (f : FusedResult) :
    (scoreFused cfg n f).engines = f.engines := rfl

theorem setFinal_engines (m : FusionMethod) (f : FusedResult) :
    (setFinal m f).engines = f.engines := rfl

theorem setFinal_scoreFused_fields (cfg : FusionConfig) (n : ℕ)
    (m : FusionMethod) (f : FusedResult) :
    (setFinal m (scoreFused cfg n f)).engines = f.engines
    ∧ (setFinal m (scoreFused cfg n f)).original_ranks = f.original_ranks
    ∧ (setFinal m (scoreFused cfg n f)).url = f.url
    ∧ (setFinal m (scoreFused cfg n f)).rrf_score = calculate_rrf cfg f
    ∧ (setFinal m (scoreFused cfg n f)).weighted_score = calculate_weighted cfg f
    ∧ (setFinal m (scoreFused cfg n f)).borda_score = calculate_borda cfg n f :=
  ⟨rfl, rfl, rfl, rfl, rfl, rfl⟩

theorem setFinal_final (m : FusionMethod) (f : FusedResult) :
    (setFinal m f).final_score =
      match m with
      | FusionMethod.rrf => (setFinal m f).rrf_score
      | FusionMethod.weighted => (setFinal m f).weighted_score
      | FusionMethod.borda => (setFinal m f).borda_score
      | FusionMethod.hybrid =>
          (3/5) * (setFinal m f).rrf_score + (2/5) * (setFinal m f).weighted_score := by
  cases m <;> rfl

theorem mem_fuse_shape (cfg : FusionConfig)
    (inputs : List (String × List SearchResult)) (m : FusionMethod)
    (top_k : Option ℕ) (f : FusedResult) (hf : f ∈ fuse cfg inputs m top_k) :
    ∃ nu g, (nu, g) ∈ fuseGroups cfg inputs ∧
      f = setFinal m (scoreFused cfg inputs.length g) := by
  have hsorted : f ∈ (scoredGroups cfg inputs m).mergeSort fusedLe := by
    unfold fuse at hf
    dsimp only at hf
    rcases top_k with _ | k
    · exact hf
    · dsimp only at hf
      by_cases hk : k ≠ 0
      · rw [if_pos hk] at hf
        exact List.mem_of_mem_take hf
      · rw [if_neg hk] at hf
        exact hf
  have hmem : f ∈ scoredGroups cfg inputs m := List.mem_mergeSort.mp hsorted
  unfold scoredGroups at hmem
  obtain ⟨p, hp, hpe⟩ := List.mem_map.mp hmem
  exact ⟨p.1, p.2, hp, hpe.symm⟩

theorem mem_fuseGroups_spec (cfg : FusionConfig)
    (inputs : List (String × List SearchResult)) (nu : String)
    (g : FusedResult) (hg : (nu, g) ∈ fuseGroups cfg inputs) :
    (∀ x, x ∈ g.engines ↔ ∃ p ∈ inputs, x = p.1 ∧ hasMatch cfg nu p.2)
    ∧ (∀ x, (alookup x g.original_ranks).isSome ↔ x ∈ g.engines)
    ∧ g.engines ≠ []
    ∧ g.url ≠ "" ∧ cfg.normalizer g.url = nu := by
  have hl : alookup nu (fuseGroups cfg inputs) = some g :=
    alookup_of_mem_nodup (keys_fuseGroups_nodup cfg inputs) hg
  have hrun : runInputs cfg nu inputs none = some g :=
    (alookup_fuseGroups cfg nu inputs) ▸ hl
  obtain ⟨he, hr, hu⟩ := runInputs_spec cfg nu inputs none g hrun
  have he' : ∀ x, x ∈ g.engines ↔ ∃ p ∈ inputs, x = p.1 ∧ hasMatch cfg nu p.2 := by
    intro x
    rw [he x]
    constructor
    · intro hcase
      rcases hcase with hbase | hgood
      · exact absurd hbase (List.not_mem_nil x)
      · exact hgood
    · exact Or.inr
  have hr' : ∀ x, (alookup x g.original_ranks).isSome ↔ x ∈ g.engines := by
    intro x
    rw [he' x, hr x]
    constructor
    · intro hcase
      rcases hcase with ⟨f₀, hf₀, _⟩ | hgood
      · exact absurd hf₀ (by simp)
      · exact hgood
    · exact Or.inr
  have hne : g.engines ≠ [] := by
    intro hempty
    have hcontr : ∃ p ∈ inputs, hasMatch cfg nu p.2 := by
      by_contra hnc
      have : runInputs cfg nu inputs none = none :=
        (runInputs_none_iff cfg nu inputs none).mpr ⟨rfl, hnc⟩
      rw [this] at hrun
      exact absurd hrun (by simp)
    obtain ⟨p, hp, hpm⟩ := hcontr
    have : p.1 ∈ g.engines := (he' p.1).mpr ⟨p, hp, rfl, hpm⟩
    rw [hempty] at this
    exact absurd this (List.not_mem_nil p.1)
  exact ⟨he', hr', hne, hu⟩

theorem fuse_norm_urls_nodup (cfg : FusionConfig)
    (inputs : List (String × List SearchResult)) (m : FusionMethod)
    (top_k : Option ℕ) :
    ((fuse cfg inputs m top_k).map (fun f => cfg.normalizer f.url)).Nodup := by
  have hscored : ((scoredGroups cfg inputs m).map (fun f => cfg.normalizer f.url))
      = (fuseGroups cfg inputs).map Prod.fst := by
    unfold scoredGroups
    rw [List.map_map]
    apply List.map_congr_left
    intro p hp
    have hp' : (p.1, p.2) ∈ fuseGroups cfg inputs := by
      rw [show (p.1, p.2) = p from rfl]
      exact hp
    exact (mem_fuseGroups_spec cfg inputs p.1 p.2 hp').2.2.2.2
  have hsortmap : ((scoredGroups cfg inputs m).mergeSort fusedLe).map
      (fun f => cfg.normalizer f.url) |>.Nodup := by
    have hperm := (List.mergeSort_perm (scoredGroups cfg inputs m) fusedLe).map
      (fun f => cfg.normalizer f.url)
    rw [List.Perm.nodup_iff hperm, hscored]
    exact keys_fuseGroups_nodup cfg inputs
  unfold fuse
  dsimp only
  rcases top_k with _ | k
  · exact hsortmap
  · dsimp only
    by_cases hk : k ≠ 0
    · rw [if_pos hk, List.map_take]
      exact hsortmap.sublist (List.take_sublist _ _)
    · rw [if_neg hk]
      exact hsortmap

/-- C5 amended: every fused output group has a non-empty `engines` list whose
underlying SET is exactly the set of input engine lists containing a result
with a non-empty URL normalizing to the group's URL; the rank dict has an
entry for a backend exactly when it occurs in `engines`; no normalized URL
appears in two outputs; and `final_score` is the score selected by the
requested method.  (The counterexample shows `engines` is a LIST that can
contain the same engine twice — one entry per contributing result, not a
set — when one engine yields two results with the same normalized URL.) -/

theorem fuse_engines_invariants :
    (∀ (cfg : FusionConfig) (inputs : List (String × List SearchResult))
      (m : FusionMethod) (top_k : Option ℕ) (f : FusedResult),
      f ∈ fuse cfg inputs m top_k →
      f.engines ≠ []
      ∧ (∀ x, x ∈ f.engines ↔
          ∃ p ∈ inputs, x = p.1 ∧ hasMatch cfg (cfg.normalizer f.url) p.2)
      ∧ (∀ x, (alookup x f.original_ranks).isSome ↔ x ∈ f.engines)
      ∧ f.final_score =
          (match m with
           | FusionMethod.rrf => f.rrf_score
           | FusionMethod.weighted => f.weighted_score
           | FusionMethod.borda => f.borda_score
           | FusionMethod.hybrid =>
               (3/5) * f.rrf_score + (2/5) * f.weighted_score))
    ∧ (∀ (cfg : FusionConfig) (inputs : List (String × List SearchResult))
        (m : FusionMethod) (top_k : Option ℕ),
        ((fuse cfg inputs m top_k).map (fun f => cfg.normalizer f.url)).Nodup) := by
  refine ⟨?_, fuse_norm_urls_nodup⟩
  intro cfg inputs m top_k f hf
  obtain ⟨nu, g, hg, rfl⟩ := mem_fuse_shape cfg inputs m top_k f hf
  obtain ⟨he, hr, hne, hu1, hu2⟩ := mem_fuseGroups_spec cfg inputs nu g hg
  obtain ⟨hfe, hfr, hfu, _, _, _⟩ :=
    setFinal_scoreFused_fields cfg inputs.length m g
  refine ⟨?_, ?_, ?_, ?_⟩
  · rw [hfe]; exact hne
  · intro x
    rw [hfe, hfu, hu2]
    exact he x
  · intro x
    rw [hfe, hfr]
    exact hr x
  · exact setFinal_final m (scoreFused cfg inputs.length g)

/-- C5 counterexample: one engine returning two results whose URLs normalize
to the same `"a"` yields a single group whose `engines` value is the LIST
`["x", "x"]` — the same engine twice — so `engines` is not a set. -/

theorem fuse_engines_duplicate_counterexample :
    ((fuse defaultFusionConfig [("x", [rA, rAcap])] FusionMethod.rrf none).map
      FusedResult.engines) = [["x", "x"]]
    ∧ ¬ (["x", "x"] : List String).Nodup := by
  constructor
  · have hg : fuseGroups defaultFusionConfig [("x", [rA, rAcap])] =
        [("a", updateFused "x" 2 rAcap (updateFused "x" 1 rA (newFused rA)))] :=
      rfl
    show ((scoredGroups defaultFusionConfig [("x", [rA, rAcap])]
      FusionMethod.rrf).mergeSort fusedLe).map FusedResult.engines = _
    unfold scoredGroups
    rw [hg]
    simp only [List.map_cons, List.map_nil]
    rw [List.mergeSort_singleton _]
    rfl
  · decide

/-- Concrete run of the fusion-group invariants: the single group fusing
engine "x"'s one result has a non-empty engine list, rank entries exactly
for its engines, RRF as its final score, and distinct normalized URLs. -/

theorem fuse_engines_invariants_witness :
    fusedA ∈ fuse defaultFusionConfig [("x", [rA])] FusionMethod.rrf none
    ∧ fusedA.engines ≠ []
    ∧ ("x" ∈ fusedA.engines ↔ ∃ p ∈ [("x", [rA])], "x" = p.1 ∧
        hasMatch defaultFusionConfig
          (defaultFusionConfig.normalizer fusedA.url) p.2)
    ∧ ((alookup "x" fusedA.original_ranks).isSome ↔ "x" ∈ fusedA.engines)
    ∧ fusedA.final_score = fusedA.rrf_score
    ∧ ((fuse defaultFusionConfig [("x", [rA])] FusionMethod.rrf none).map
        (fun f => defaultFusionConfig.normalizer f.url)).Nodup := by
  have hmem : fusedA ∈ fuse defaultFusionConfig [("x", [rA])]
      FusionMethod.rrf none := by
    have hg : fuseGroups defaultFusionConfig [("x", [rA])] =
        [("a", updateFused "x" 1 rA (newFused rA))] := rfl
    show fusedA ∈ (scoredGroups defaultFusionConfig [("x", [rA])]
      FusionMethod.rrf).mergeSort fusedLe
    unfold scoredGroups
    rw [hg]
    simp only [List.map_cons, List.map_nil]
    rw [List.mergeSort_singleton _]
    exact List.mem_singleton.mpr rfl
  obtain ⟨part1, part2⟩ := fuse_engines_invariants
  obtain ⟨h1, h2, h3, h4⟩ := part1 defaultFusionConfig [("x", [rA])]
    FusionMethod.rrf none fusedA hmem
  exact ⟨hmem, h1, h2 "x", h3 "x", h4,
    part2 defaultFusionConfig [("x", [rA])] FusionMethod.rrf none⟩

theorem fusedLe_trans : ∀ a b c : FusedResult,
    fusedLe a b → fusedLe b c → fusedLe a c := by
  intro a b c hab hbc
  simp only [fusedLe, decide_eq_true_eq] at *
  exact le_trans hbc hab

theorem fusedLe_total : ∀ a b : FusedResult, fusedLe a b || fusedLe b a := by
  intro a b
  rcases le_total a.final_score b.final_score with h | h <;>
    simp [fusedLe, h]

/-- C6 amended: the output of `fuse` is sorted by `final_score` descending,
and the sort is STABLE: two groups with equal `final_score` appear in the
output in the order their groups were first created (CPython's `list.sort`
is stable and uses only the `final_score` key) — there is no tie-break by
engine count or by URL. -/

theorem fuse_tie_order :
    (∀ (cfg : FusionConfig) (inputs : List (String × List SearchResult))
      (m : FusionMethod) (top_k : Option ℕ),
      (fuse cfg inputs m top_k).Pairwise
        (fun a b => b.final_score ≤ a.final_score))
    ∧ (∀ (cfg : FusionConfig) (inputs : List (String × List SearchResult))
        (m : FusionMethod) (a b : FusedResult),
        a.final_score = b.final_score →
        List.Sublist [a, b] (scoredGroups cfg inputs m) →
        List.Sublist [a, b] (fuse cfg inputs m none)) := by
  constructor
  · intro cfg inputs m top_k
    have hsorted : ((scoredGroups cfg inputs m).mergeSort fusedLe).Pairwise
        (fun a b => b.final_score ≤ a.final_score) :=
      (List.sorted_mergeSort fusedLe_trans fusedLe_total
        (scoredGroups cfg inputs m)).imp
        (fun h => by simpa [fusedLe] using h)
    unfold fuse
    dsimp only
    rcases top_k with _ | k
    · exact hsorted
    · dsimp only
      by_cases hk : k ≠ 0
      · rw [if_pos hk]
        exact hsorted.sublist (List.take_sublist _ _)
      · rw [if_neg hk]
        exact hsorted
  · intro cfg inputs m a b heq hsub
    show List.Sublist [a, b] ((scoredGroups cfg inputs m).mergeSort fusedLe)
    exact List.pair_sublist_mergeSort fusedLe_trans fusedLe_total
      (decide_eq_true (le_of_eq heq.symm)) hsub

theorem fusedB2_final : fusedB2.final_score = 1/61 := by
  show calculate_rrf defaultFusionConfig (updateFused "x" 1 rB (newFused rB)) = 1/61
  have : calculate_rrf defaultFusionConfig (updateFused "x" 1 rB (newFused rB)) =
      0 + DEFAULT_WEIGHTS "x" / (((60 : ℕ) : ℚ) + ((1 : ℕ) : ℚ)) := rfl
  rw [this]
  have hw : DEFAULT_WEIGHTS "x" = 1 := by
    simp [DEFAULT_WEIGHTS]
  rw [hw]
  norm_num

theorem fusedA2_final : fusedA2.final_score = 1/61 := by
  show calculate_rrf defaultFusionConfig (updateFused "y" 1 rA (newFused rA)) = 1/61
  have : calculate_rrf defaultFusionConfig (updateFused "y" 1 rA (newFused rA)) =
      0 + DEFAULT_WEIGHTS "y" / (((60 : ℕ) : ℚ) + ((1 : ℕ) : ℚ)) := rfl
  rw [this]
  have hw : DEFAULT_WEIGHTS "y" = 1 := by
    simp [DEFAULT_WEIGHTS]
  rw [hw]
  norm_num

theorem fuse_two_ties_eval :
    fuse defaultFusionConfig [("x", [rB]), ("y", [rA])] FusionMethod.rrf none =
      [fusedB2, fusedA2] := by
  have hle : fusedA2.final_score ≤ fusedB2.final_score := by
    rw [fusedA2_final, fusedB2_final]
  have hg : scoredGroups defaultFusionConfig [("x", [rB]), ("y", [rA])]
      FusionMethod.rrf = [fusedB2, fusedA2] := rfl
  show (scoredGroups defaultFusionConfig [("x", [rB]), ("y", [rA])]
    FusionMethod.rrf).mergeSort fusedLe = _
  rw [hg]
  exact List.mergeSort_of_sorted (List.pairwise_pair.mpr (decide_eq_true hle))

/-- C6 counterexample: two backends, each contributing one result, with
equal final scores (1/61 each) and equal engine counts.  The output keeps
first-creation order `["b", "a"]`, although `"a" < "b"` lexicographically —
so equal-score, equal-engine-count results are NOT ordered by URL. -/

theorem fuse_tiebreak_counterexample :
    ((fuse defaultFusionConfig [("x", [rB]), ("y", [rA])] FusionMethod.rrf
      none).map FusedResult.url = ["b", "a"])
    ∧ ((fuse defaultFusionConfig [("x", [rB]), ("y", [rA])] FusionMethod.rrf
      none).map FusedResult.final_score = [1/61, 1/61])
    ∧ ((fuse defaultFusionConfig [("x", [rB]), ("y", [rA])] FusionMethod.rrf
      none).map (fun f => f.engines.length) = [1, 1])
    ∧ ("a" : String) < "b" := by
  refine ⟨?_, ?_, ?_, ?_⟩
  · rw [fuse_two_ties_eval]
    rfl
  · rw [fuse_two_ties_eval]
    simp only [List.map_cons, List.map_nil, fusedB2_final, fusedA2_final]
  · rw [fuse_two_ties_eval]
    rfl
  · rw [String.lt_iff_toList_lt]
    decide

/-- Concrete run of the tie-order theorem: in the two-backend tie example
the output is sorted descending, and the equal-score pair keeps its
group-creation order (`fusedB2` before `fusedA2`). -/

theorem fuse_tie_order_witness :
    (fuse defaultFusionConfig [("x", [rB]), ("y", [rA])] FusionMethod.rrf
      none).Pairwise (fun a b => b.final_score ≤ a.final_score)
    ∧ fusedB2.final_score = fusedA2.final_score
    ∧ List.Sublist [fusedB2, fusedA2]
        (scoredGroups defaultFusionConfig [("x", [rB]), ("y", [rA])]
          FusionMethod.rrf)
    ∧ List.Sublist [fusedB2, fusedA2]
        (fuse defaultFusionConfig [("x", [rB]), ("y", [rA])] FusionMethod.rrf
          none) := by
  obtain ⟨hsort, hstable⟩ := fuse_tie_order
  have heq : fusedB2.final_score = fusedA2.final_score := by
    rw [fusedB2_final, fusedA2_final]
  have hsub : List.Sublist [fusedB2, fusedA2]
      (scoredGroups defaultFusionConfig [("x", [rB]), ("y", [rA])]
        FusionMethod.rrf) := by
    have hg : scoredGroups defaultFusionConfig [("x", [rB]), ("y", [rA])]
        FusionMethod.rrf = [fusedB2, fusedA2] := rfl
    rw [hg]
  exact ⟨hsort defaultFusionConfig [("x", [rB]), ("y", [rA])] FusionMethod.rrf
      none, heq, hsub,
    hstable defaultFusionConfig [("x", [rB]), ("y", [rA])] FusionMethod.rrf
      fusedB2 fusedA2 heq hsub⟩

theorem addResult_fresh (cfg : FusionConfig) (e : String) (rank : ℕ)
    (r : SearchResult) (gs : List (String × FusedResult))
    (hurl : r.url ≠ "") (hnew : alookup (cfg.normalizer r.url) gs = none) :
    addResult cfg e rank r gs =
      gs ++ [(cfg.normalizer r.url, updateFused e rank r (newFused r))] := by
  unfold addResult
  rw [if_neg hurl]
  dsimp only
  rw [hnew]

theorem addResults_fresh (cfg : FusionConfig) (e : String) :
    ∀ (rs : List SearchResult) (rank : ℕ) (gs : List (String × FusedResult)),
      (∀ r ∈ rs, r.url ≠ "") →
      (∀ r ∈ rs, alookup (cfg.normalizer r.url) gs = none) →
      (rs.map (fun r => cfg.normalizer r.url)).Nodup →
      addResults cfg e rank rs gs = gs ++ buildFresh cfg e rank rs := by
  intro rs
  induction rs with
  | nil => intro rank gs _ _ _; simp [addResults, buildFresh]
  | cons r rs ih =>
    intro rank gs hurl hnew hnd
    have hstep : addResult cfg e rank r gs =
        gs ++ [(cfg.normalizer r.url, updateFused e rank r (newFused r))] :=
      addResult_fresh cfg e rank r gs (hurl r (List.mem_cons_self r rs))
        (hnew r (List.mem_cons_self r rs))
    show addResults cfg e (rank + 1) rs (addResult cfg e rank r gs) = _
    rw [hstep]
    rw [List.map_cons, List.nodup_cons] at hnd
    have hnew' : ∀ r' ∈ rs, alookup (cfg.normalizer r'.url)
        (gs ++ [(cfg.normalizer r.url, updateFused e rank r (newFused r))]) =
        none := by
      intro r' hr'
      rw [alookup_append, hnew r' (List.mem_cons_of_mem r hr')]
      dsimp only
      have hne : cfg.normalizer r.url ≠ cfg.normalizer r'.url := by
        intro hc
        exact hnd.1 (hc ▸ List.mem_map.mpr ⟨r', hr', rfl⟩)
      simp [alookup, hne]
    rw [ih (rank + 1) _ (fun r' hr' => hurl r' (List.mem_cons_of_mem r hr'))
      hnew' hnd.2]
    rw [List.append_assoc]
    rfl

theorem fuseGroups_single (cfg : FusionConfig) (e : String)
    (rs : List SearchResult) (hurl : ∀ r ∈ rs, r.url ≠ "")
    (hnd : (rs.map (fun r => cfg.normalizer r.url)).Nodup) :
    fuseGroups cfg [(e, rs)] = buildFresh cfg e 1 rs := by
  show addResults cfg e 1 rs [] = _
  rw [addResults_fresh cfg e rs 1 [] hurl (fun r _ => rfl) hnd]
  rfl

theorem fresh_rrf (cfg : FusionConfig) (e : String) (k : ℕ) (r : SearchResult)
    (n : ℕ) (m : FusionMethod) :
    (setFinal m (scoreFused cfg n (updateFused e k r (newFused r)))).rrf_score =
      cfg.weights e / ((cfg.rrf_k : ℚ) + (k : ℚ)) := by
  show calculate_rrf cfg (updateFused e k r (newFused r)) = _
  unfold calculate_rrf
  rw [updateFused_ranks]
  rw [show assocSet e k (newFused r).original_ranks = [(e, k)] from rfl]
  rw [show ([(e, k)] : List (String × ℕ)).foldl
    (fun s p => s + cfg.weights p.1 / ((cfg.rrf_k : ℚ) + (p.2 : ℚ))) 0 =
    0 + cfg.weights e / ((cfg.rrf_k : ℚ) + (k : ℚ)) from rfl]
  rw [zero_add]

theorem fresh_map_url (cfg : FusionConfig) (e : String) (n : ℕ)
    (m : FusionMethod) :
    ∀ (rs : List SearchResult) (rank : ℕ),
      ((buildFresh cfg e rank rs).map
        (fun p => (setFinal m (scoreFused cfg n p.2)).url)) =
      rs.map SearchResult.url := by
  intro rs
  induction rs with
  | nil => intro rank; rfl
  | cons r rs ih =>
    intro rank
    show ((setFinal m (scoreFused cfg n (updateFused e rank r
      (newFused r)))).url) :: _ = r.url :: _
    rw [ih (rank + 1)]
    congr 1
    show (updateFused e rank r (newFused r)).url = r.url
    rw [updateFused_url]
    rfl

theorem fresh_scores_mem (cfg : FusionConfig) (e : String) (n : ℕ)
    (m : FusionMethod) :
    ∀ (rs : List SearchResult) (rank : ℕ) (x : ℚ),
      x ∈ ((buildFresh cfg e rank rs).map
        (fun p => (setFinal m (scoreFused cfg n p.2)).rrf_score)) →
      ∃ k, rank ≤ k ∧ x = cfg.weights e / ((cfg.rrf_k : ℚ) + (k : ℚ)) := by
  intro rs
  induction rs with
  | nil => intro rank x hx; exact absurd hx (List.not_mem_nil x)
  | cons r rs ih =>
    intro rank x hx
    rcases List.mem_cons.mp hx with heq | htail
    · exact ⟨rank, le_refl rank, heq.trans (fresh_rrf cfg e rank r n m)⟩
    · obtain ⟨k, hk, hxk⟩ := ih (rank + 1) x htail
      exact ⟨k, le_trans (Nat.le_succ rank) hk, hxk⟩

theorem fresh_scores_pairwise (cfg : FusionConfig) (e : String) (n : ℕ)
    (m : FusionMethod) (hw : 0 < cfg.weights e) :
    ∀ (rs : List SearchResult) (rank : ℕ), 0 < rank →
      ((buildFresh cfg e rank rs).map
        (fun p => (setFinal m (scoreFused cfg n p.2)).rrf_score)).Pairwise
        (· > ·) := by
  intro rs
  induction rs with
  | nil => intro rank _; simp [buildFresh]
  | cons r rs ih =>
    intro rank hrank
    rw [show ((buildFresh cfg e rank (r :: rs)).map
      (fun p => (setFinal m (scoreFused cfg n p.2)).rrf_score)) =
      ((setFinal m (scoreFused cfg n (updateFused e rank r
        (newFused r)))).rrf_score) ::
      ((buildFresh cfg e (rank + 1) rs).map
        (fun p => (setFinal m (scoreFused cfg n p.2)).rrf_score)) from rfl]
    rw [List.pairwise_cons]
    refine ⟨fun x hx => ?_, ih (rank + 1) (Nat.succ_pos rank)⟩
    obtain ⟨k, hk, rfl⟩ := fresh_scores_mem cfg e n m rs (rank + 1) x hx
    rw [fresh_rrf]
    have hd1 : (0 : ℚ) < (cfg.rrf_k : ℚ) + (rank : ℚ) := by
      have h1 : (1 : ℚ) ≤ (rank : ℚ) := by exact_mod_cast hrank
      have h2 : (0 : ℚ) ≤ (cfg.rrf_k : ℚ) := Nat.cast_nonneg _
      linarith
    have hd2 : (cfg.rrf_k : ℚ) + (rank : ℚ) < (cfg.rrf_k : ℚ) + (k : ℚ) := by
      have : (rank : ℚ) < (k : ℚ) := by
        exact_mod_cast Nat.lt_of_succ_le hk
      linarith
    exact div_lt_div_of_pos_left hw hd1 hd2

theorem fuse_rrf_final (cfg : FusionConfig)
    (inputs : List (String × List SearchResult)) (top_k : Option ℕ)
    (f : FusedResult) (hf : f ∈ fuse cfg inputs FusionMethod.rrf top_k) :
    f.final_score = f.rrf_score := by
  obtain ⟨nu, g, hg, rfl⟩ := mem_fuse_shape cfg inputs FusionMethod.rrf top_k f hf
  rfl

theorem fuse_single_eval (cfg : FusionConfig) (e : String)
    (rs : List SearchResult) (hurl : ∀ r ∈ rs, r.url ≠ "")
    (hnd : (rs.map (fun r => cfg.normalizer r.url)).Nodup)
    (hw : 0 < cfg.weights e) :
    fuse cfg [(e, rs)] FusionMethod.rrf none =
      (buildFresh cfg e 1 rs).map
        (fun p => setFinal FusionMethod.rrf (scoreFused cfg 1 p.2)) := by
  show (scoredGroups cfg [(e, rs)] FusionMethod.rrf).mergeSort fusedLe = _
  have hsg : scoredGroups cfg [(e, rs)] FusionMethod.rrf =
      (buildFresh cfg e 1 rs).map
        (fun p => setFinal FusionMethod.rrf (scoreFused cfg 1 p.2)) := by
    unfold scoredGroups
    rw [fuseGroups_single cfg e rs hurl hnd]
    rfl
  rw [hsg]
  apply List.mergeSort_of_sorted
  have hp := fresh_scores_pairwise cfg e 1 FusionMethod.rrf hw rs 1 one_pos
  rw [List.pairwise_map] at hp
  rw [List.pairwise_map]
  exact hp.imp (fun h => decide_eq_true (le_of_lt h))

/-- C4: for every fused output, `rrf_score` is exactly
`Σ_b weights[b] / (rrf_k + rank_b)` over the group's (1-based) rank dict;
and fusing a single backend's list of results with distinct normalized,
non-empty URLs under a positive engine weight yields the inputs in their
original order with strictly decreasing RRF scores (which are the final
scores for the `rrf` method).  Determinism is definitional: the embedding's
`fuse` is a pure function of its inputs. -/

theorem rrf_score_formula :
    (∀ (cfg : FusionConfig) (inputs : List (String × List SearchResult))
      (m : FusionMethod) (top_k : Option ℕ) (f : FusedResult),
      f ∈ fuse cfg inputs m top_k →
      f.rrf_score = f.original_ranks.foldl
        (fun s p => s + cfg.weights p.1 / ((cfg.rrf_k : ℚ) + (p.2 : ℚ))) 0)
    ∧ (∀ (cfg : FusionConfig) (e : String) (rs : List SearchResult),
        (∀ r ∈ rs, r.url ≠ "") →
        (rs.map (fun r => cfg.normalizer r.url)).Nodup →
        0 < cfg.weights e →
        ((fuse cfg [(e, rs)] FusionMethod.rrf none).map FusedResult.url =
          rs.map SearchResult.url)
        ∧ ((fuse cfg [(e, rs)] FusionMethod.rrf none).map
            FusedResult.rrf_score).Pairwise (· > ·)
        ∧ (∀ f ∈ fuse cfg [(e, rs)] FusionMethod.rrf none,
            f.final_score = f.rrf_score)) := by
  constructor
  · intro cfg inputs m top_k f hf
    obtain ⟨nu, g, hg, rfl⟩ := mem_fuse_shape cfg inputs m top_k f hf
    rfl
  · intro cfg e rs hurl hnd hw
    have heval := fuse_single_eval cfg e rs hurl hnd hw
    refine ⟨?_, ?_, fun f hf => fuse_rrf_final cfg [(e, rs)] none f hf⟩
    · rw [heval, List.map_map]
      exact fresh_map_url cfg e 1 FusionMethod.rrf rs 1
    · rw [heval, List.map_map]
      exact fresh_scores_pairwise cfg e 1 FusionMethod.rrf hw rs 1 one_pos

/-- Concrete run of the RRF theorem: the one-result group's RRF score is its
formula value, and two distinct-URL results from engine "x" come out in
input order with strictly decreasing scores. -/

theorem rrf_score_formula_witness :
    (fusedA.rrf_score = fusedA.original_ranks.foldl
      (fun s p => s + defaultFusionConfig.weights p.1 /
        ((defaultFusionConfig.rrf_k : ℚ) + (p.2 : ℚ))) 0)
    ∧ ((fuse defaultFusionConfig [("x", [rA, rB])] FusionMethod.rrf none).map
        FusedResult.url = [rA, rB].map SearchResult.url)
    ∧ ((fuse defaultFusionConfig [("x", [rA, rB])] FusionMethod.rrf none).map
        FusedResult.rrf_score).Pairwise (· > ·) := by
  obtain ⟨part1, part2⟩ := rrf_score_formula
  have hmem : fusedA ∈ fuse defaultFusionConfig [("x", [rA])]
      FusionMethod.rrf none := by
    have hg : fuseGroups defaultFusionConfig [("x", [rA])] =
        [("a", updateFused "x" 1 rA (newFused rA))] := rfl
    show fusedA ∈ (scoredGroups defaultFusionConfig [("x", [rA])]
      FusionMethod.rrf).mergeSort fusedLe
    unfold scoredGroups
    rw [hg]
    simp only [List.map_cons, List.map_nil]
    rw [List.mergeSort_singleton _]
    exact List.mem_singleton.mpr rfl
  have hw : (0 : ℚ) < defaultFusionConfig.weights "x" := by
    show (0 : ℚ) < DEFAULT_WEIGHTS "x"
    have : DEFAULT_WEIGHTS "x" = 1 := by simp [DEFAULT_WEIGHTS]
    rw [this]
    norm_num
  obtain ⟨h1, h2, _⟩ := part2 defaultFusionConfig "x" [rA, rB]
    (by decide) (by decide) hw
  exact ⟨part1 defaultFusionConfig [("x", [rA])] FusionMethod.rrf none fusedA
    hmem, h1, h2⟩

theorem fallbackRerank_map_orig {α : Type} :
    ∀ (i : ℕ) (l : List α),
      (fallbackRerank i l).map RerankResult.original_result = l := by
  intro i l
  induction l generalizing i with
  | nil => rfl
  | cons r rs ih =>
    show r :: (fallbackRerank (i + 1) rs).map RerankResult.original_result = _
    rw [ih (i + 1)]

theorem fallbackRerank_scores_mem {α : Type} :
    ∀ (i : ℕ) (l : List α) (x : ℚ),
      x ∈ (fallbackRerank i l).map RerankResult.final_score →
      ∃ j, i ≤ j ∧ x = 1 - (j : ℚ) / 100 := by
  intro i l
  induction l generalizing i with
  | nil => intro x hx; exact absurd hx (List.not_mem_nil x)
  | cons r rs ih =>
    intro x hx
    rcases List.mem_cons.mp hx with heq | htail
    · exact ⟨i, le_refl i, heq⟩
    · obtain ⟨j, hj, hxj⟩ := ih (i + 1) x htail
      exact ⟨j, le_trans (Nat.le_succ i) hj, hxj⟩

theorem fallbackRerank_scores_pairwise {α : Type} :
    ∀ (i : ℕ) (l : List α),
      ((fallbackRerank i l).map RerankResult.final_score).Pairwise (· > ·) := by
  intro i l
  induction l generalizing i with
  | nil => simp [fallbackRerank]
  | cons r rs ih =>
    show ((1 - (i : ℚ) / 100) ::
      (fallbackRerank (i + 1) rs).map RerankResult.final_score).Pairwise (· > ·)
    rw [List.pairwise_cons]
    refine ⟨fun x hx => ?_, ih (i + 1)⟩
    obtain ⟨j, hj, rfl⟩ := fallbackRerank_scores_mem (i + 1) rs x hx
    have : (i : ℚ) < (j : ℚ) := by exact_mod_cast Nat.lt_of_succ_le hj
    have hdiv : (i : ℚ) / 100 < (j : ℚ) / 100 := by linarith
    linarith

/-- C9 counterexample: with the library present but model loading failed
(`model = none`) and a configured `top_k` of 1, reranking a two-element
input returns only the first element — the input list is truncated, not
returned unchanged. -/

theorem rerank_truncates_counterexample :
    (rerank (α := String) true none id (7/10) 1 "q" ["a", "b"] none).map
      RerankResult.original_result ≠ ["a", "b"] := by
  intro hc
  have : (rerank (α := String) true none id (7/10) 1 "q" ["a", "b"] none).map
      RerankResult.original_result = ["a"] := rfl
  rw [this] at hc
  exact absurd hc (by decide)

/-- C9 amended: when the sentence-transformers library is absent, `rerank`
returns ALL input results in unchanged order with synthetic strictly
descending final scores (`1 - 0.01*i`); when the library is present but the
model fails to load, it returns the first `min(top_k, len)` results (the
list is truncated to `top_k`, default `config.top_k`) in unchanged order,
again with strictly descending synthetic scores. -/

theorem rerank_unavailable_order :
    (∀ (α : Type) (model : Option (String → List String → List ℚ))
      (doc : α → String) (w : ℚ) (ck : ℕ) (q : String) (results : List α)
      (tk : Option ℕ),
      ((rerank false model doc w ck q results tk).map
        RerankResult.original_result = results)
      ∧ ((rerank false model doc w ck q results tk).map
          RerankResult.final_score).Pairwise (· > ·))
    ∧ (∀ (α : Type) (doc : α → String) (w : ℚ) (ck : ℕ) (q : String)
        (results : List α) (tk : Option ℕ),
        ((rerank true none doc w ck q results tk).map
          RerankResult.original_result = results.take (resolveTopK ck tk))
        ∧ ((rerank true none doc w ck q results tk).map
            RerankResult.final_score).Pairwise (· > ·)) := by
  constructor
  · intro α model doc w ck q results tk
    show ((fallbackRerank 0 results).map RerankResult.original_result = _) ∧ _
    exact ⟨fallbackRerank_map_orig 0 results,
      fallbackRerank_scores_pairwise 0 results⟩
  · intro α doc w ck q results tk
    show ((fallbackRerank 0 (results.take (resolveTopK ck tk))).map
      RerankResult.original_result = _) ∧ _
    exact ⟨fallbackRerank_map_orig 0 _, fallbackRerank_scores_pairwise 0 _⟩
